import Mathlib

/-
  Verification development for the te-ips address aggregation engine
  (src/src/te-ips/te-ips.go).

  A Go `net.IP` produced by `net.ParseIP` is a 16-byte slice.  IPv4
  addresses are stored in their v4-in-v6 mapped form `::ffff:a.b.c.d`;
  the code classifies an address as IPv4 whenever `ip.To4() != nil`.
  We model an address as either a 32-bit IPv4 value (the mapped form)
  or a pair of 64-bit halves (bytes 0..8 and 8..16 of the slice).
-/

set_option maxHeartbeats 1000000

namespace TeIps

inductive IP where
  | v4 (val : Nat)
  | v6 (hi lo : Nat)
deriving DecidableEq, Repr

/-- `net.IP.To4`: non-nil for a 4-byte address or a 16-byte address of the
    mapped form (bytes 0..10 zero, bytes 10..12 = 0xffff); the result's
    32-bit value. -/
def IP.to4 : IP → Option Nat
  | .v4 v => some v
  | .v6 hi lo => if hi = 0 ∧ lo / 2 ^ 32 = 65535 then some (lo % 2 ^ 32) else none

/-- `binary.BigEndian.Uint64(ip[0:8])` on the 16-byte form. -/
def IP.hi64 : IP → Nat
  | .v4 _ => 0
  | .v6 hi _ => hi

/-- `binary.BigEndian.Uint64(ip[8:16])` on the 16-byte form. -/
def IP.lo64 : IP → Nat
  | .v4 v => 65535 * 2 ^ 32 + v % 2 ^ 32
  | .v6 _ lo => lo

/-- Numeric value inside one family: the 32-bit value for v4, the 128-bit
    value for v6.  `bytes.Compare` between two addresses of one family
    (both in 16-byte form) orders exactly by this value. -/
def ipVal : IP → Nat
  | .v4 v => v
  | .v6 hi lo => hi * 2 ^ 64 + lo

def IP.WF : IP → Prop
  | .v4 v => v < 2 ^ 32
  | .v6 hi lo => hi < 2 ^ 64 ∧ lo < 2 ^ 64

/-- Octet `k` (0-based from the left) of a 32-bit value: `ip4[k]` in Go. -/
def oct (k w : Nat) : Nat := w / 2 ^ (8 * (3 - k)) % 256

/-- `net.IPNet` as built by the program: a (masked) base address plus the
    CIDR mask described by `mask.Size() = (maskOnes, maskBits)`. -/
structure IPNet where
  base : IP
  maskOnes : Nat
  maskBits : Nat
deriving DecidableEq, Repr

structure IPRange where
  StartIP : IP
  EndIP : IP
deriving DecidableEq, Repr

structure IPBlock where
  StartIP : IP
  EndIP : IP
deriving DecidableEq, Repr

/-- `net.IPNet.Contains` at the shapes this program constructs: a 4-byte
    network with a 4-byte CIDR mask (the candidate is converted with `To4`,
    so only v4/mapped addresses can match), or a 16-byte network with a
    16-byte CIDR mask (a candidate whose `To4` is non-nil is converted to
    4 bytes and fails the length comparison). -/
def subnetContains (s : IPNet) (x : IP) : Bool :=
  match s.base.to4 with
  | some b =>
    match x.to4 with
    | some w => w / 2 ^ (32 - s.maskOnes) == b / 2 ^ (32 - s.maskOnes)
    | none => false
  | none =>
    match x with
    | .v4 _ => false
    | .v6 xhi xlo =>
      if (IP.v6 xhi xlo).to4.isSome then false
      else (xhi * 2 ^ 64 + xlo) / 2 ^ (128 - s.maskOnes) ==
             ipVal s.base / 2 ^ (128 - s.maskOnes)

/-- `IPRange.Contains` (te-ips.go lines 415-437). -/
def ipRangeContains (r : IPRange) (ip : IP) : Bool :=
  if ip.to4.isSome && r.StartIP.to4.isSome && r.EndIP.to4.isSome then
    decide (r.StartIP.to4.getD 0 ≤ ip.to4.getD 0 ∧ ip.to4.getD 0 ≤ r.EndIP.to4.getD 0)
  else if !ip.to4.isSome && !r.StartIP.to4.isSome && !r.EndIP.to4.isSome then
    decide ((r.StartIP.hi64 < ip.hi64 ∧ ip.hi64 < r.EndIP.hi64)
      ∨ (ip.hi64 = r.StartIP.hi64 ∧ ip.hi64 < r.EndIP.hi64 ∧ r.StartIP.lo64 ≤ ip.lo64)
      ∨ (r.StartIP.hi64 < ip.hi64 ∧ ip.hi64 = r.EndIP.hi64 ∧ ip.lo64 ≤ r.EndIP.lo64)
      ∨ (ip.hi64 = r.StartIP.hi64 ∧ ip.hi64 = r.EndIP.hi64 ∧
          r.StartIP.lo64 ≤ ip.lo64 ∧ ip.lo64 ≤ r.EndIP.lo64))
  else false

/-- `IPBlock.Contains` (te-ips.go lines 497-517); its body is identical to
    `IPRange.Contains`. -/
def ipBlockContains (b : IPBlock) (ip : IP) : Bool :=
  if ip.to4.isSome && b.StartIP.to4.isSome && b.EndIP.to4.isSome then
    decide (b.StartIP.to4.getD 0 ≤ ip.to4.getD 0 ∧ ip.to4.getD 0 ≤ b.EndIP.to4.getD 0)
  else if !ip.to4.isSome && !b.StartIP.to4.isSome && !b.EndIP.to4.isSome then
    decide ((b.StartIP.hi64 < ip.hi64 ∧ ip.hi64 < b.EndIP.hi64)
      ∨ (ip.hi64 = b.StartIP.hi64 ∧ ip.hi64 < b.EndIP.hi64 ∧ b.StartIP.lo64 ≤ ip.lo64)
      ∨ (b.StartIP.hi64 < ip.hi64 ∧ ip.hi64 = b.EndIP.hi64 ∧ ip.lo64 ≤ b.EndIP.lo64)
      ∨ (ip.hi64 = b.StartIP.hi64 ∧ ip.hi64 = b.EndIP.hi64 ∧
          b.StartIP.lo64 ≤ ip.lo64 ∧ ip.lo64 ≤ b.EndIP.lo64))
  else false

/-- Length of the accepted run of the inner `for n := 1; ...` loop of the
    range/block aggregators: elements of the tail are consumed while the
    step condition holds and the loop breaks at the first failure. -/
def runLength (p : Nat → IP → Bool) : Nat → List IP → Nat
  | _, [] => 0
  | n, x :: xs => if p n x then runLength p (n + 1) xs + 1 else 0

/-- Common skeleton of `ipsToIPRangesStrict/Loose` and
    `ipsToIPBlocksStrict/Loose`: the four Go functions are textually
    identical up to the step condition of the inner loop.  The Go early
    returns for lists of length 0 and 1 coincide with the general path.
    After a maximal run of `k` accepted steps the emitted aggregate runs
    from `ips[i]` to `ips[i+k]` and the scan resumes at `ips[i+k+1]`. -/
def scanAggregate (cond : IP → Nat → IP → Bool) : List IP → List (IP × IP)
  | [] => []
  | ip :: rest =>
    let k := runLength (cond ip) 1 rest
    (ip, (ip :: rest).getD k ip) :: scanAggregate cond (rest.drop k)
termination_by ips => ips.length
decreasing_by
  simp only [List.length_drop, List.length_cons]
  omega

/-- Step condition of `ipsToIPRangesStrict` (lines 1274-1297): v4 extends
    while `Uint32(next) == Uint32(start) + uint32(n)`; v6 extends while the
    high halves agree and `Uint64(next[8:16]) == Uint64(start[8:16]) + uint64(n)`. -/
def rangeStrictCond (ip : IP) (n : Nat) (x : IP) : Bool :=
  match ip.to4 with
  | some a =>
    match x.to4 with
    | some w => w == (a + n) % 2 ^ 32
    | none => false
  | none =>
    match x with
    | .v4 _ => false
    | .v6 xhi xlo =>
      !(IP.v6 xhi xlo).to4.isSome && xhi == ip.hi64 && xlo == (ip.lo64 + n) % 2 ^ 64

/-- Step condition of `ipsToIPRangesLoose` (lines 1326-1349): v4 extends
    while `Uint32(next) - Uint32(start) < uint32(n*255)` (32-bit wrapping
    subtraction); v6 extends while the high halves agree. -/
def rangeLooseCond (ip : IP) (n : Nat) (x : IP) : Bool :=
  match ip.to4 with
  | some a =>
    match x.to4 with
    | some w => decide ((w + 2 ^ 32 - a % 2 ^ 32) % 2 ^ 32 < n * 255 % 2 ^ 32)
    | none => false
  | none =>
    match x with
    | .v4 _ => false
    | .v6 xhi xlo => !(IP.v6 xhi xlo).to4.isSome && xhi == ip.hi64

/-- Step condition of `ipsToIPBlocksStrict` (lines 1380-1408): v4 extends
    while `Uint32(next) == Uint32(start) + uint32(n)` or
    `uint8(next[2]) == uint8(start[2]) + uint8(n) && start[3] == next[3]`;
    v6 is identical to the strict range condition. -/
def blockStrictCond (ip : IP) (n : Nat) (x : IP) : Bool :=
  match ip.to4 with
  | some a =>
    match x.to4 with
    | some w =>
      w == (a + n) % 2 ^ 32 || (oct 2 w == (oct 2 a + n) % 256 && oct 3 a == oct 3 w)
    | none => false
  | none =>
    match x with
    | .v4 _ => false
    | .v6 xhi xlo =>
      !(IP.v6 xhi xlo).to4.isSome && xhi == ip.hi64 && xlo == (ip.lo64 + n) % 2 ^ 64

/-- Step condition of `ipsToIPBlocksLoose` (lines 1440-1468): v4 extends
    while the first three octets agree and the last differs, or the third
    differs and octets 0, 1, 3 agree; v6 is identical to the loose range
    condition. -/
def blockLooseCond (ip : IP) (n : Nat) (x : IP) : Bool :=
  match ip.to4 with
  | some a =>
    match x.to4 with
    | some w =>
      (oct 3 a != oct 3 w && oct 0 a == oct 0 w && oct 1 a == oct 1 w && oct 2 a == oct 2 w)
      || (oct 2 a != oct 2 w && oct 0 a == oct 0 w && oct 1 a == oct 1 w && oct 3 a == oct 3 w)
    | none => false
  | none =>
    match x with
    | .v4 _ => false
    | .v6 xhi xlo => !(IP.v6 xhi xlo).to4.isSome && xhi == ip.hi64

def ipsToIPRangesStrict (ips : List IP) : List IPRange :=
  (scanAggregate rangeStrictCond ips).map fun p => ⟨p.1, p.2⟩

def ipsToIPRangesLoose (ips : List IP) : List IPRange :=
  (scanAggregate rangeLooseCond ips).map fun p => ⟨p.1, p.2⟩

def ipsToIPBlocksStrict (ips : List IP) : List IPBlock :=
  (scanAggregate blockStrictCond ips).map fun p => ⟨p.1, p.2⟩

def ipsToIPBlocksLoose (ips : List IP) : List IPBlock :=
  (scanAggregate blockLooseCond ips).map fun p => ⟨p.1, p.2⟩

/-- `net.IPNet{ip.Mask(CIDRMask(L, 32)), CIDRMask(L, 32)}` for a v4 value. -/
def mkV4Subnet (v L : Nat) : IPNet :=
  ⟨IP.v4 (v / 2 ^ (32 - L) * 2 ^ (32 - L)), L, 32⟩

/-- `parentSubnetForAllHosts` of `ipsToSubnetsStrict` (lines 1139-1146):
    for every `n` in `[1, 2^(32-L))`, position `i+n` exists and lies in the
    candidate subnet (`rest` is the list after position `i`). -/
def subnetStrictAccept (v : Nat) (rest : List IP) (L : Nat) : Bool :=
  (List.range (2 ^ (32 - L) - 1)).all fun j =>
    decide (j < rest.length) && subnetContains (mkV4Subnet v L) (rest.getD j (IP.v4 0))

/-- The `for parentLen := 24; ...` scan of `ipsToSubnetsStrict`: the first
    accepted prefix length (acceptance at 32 is vacuous). -/
def subnetStrictScan (v : Nat) (rest : List IP) (L : Nat) : Nat :=
  if 32 ≤ L then 32
  else if subnetStrictAccept v rest L then L
  else subnetStrictScan v rest (L + 1)
termination_by 32 - L

/-- `ipsToSubnetsStrict` (lines 1119-1166): v4 emits the widest /24..32
    subnet exactly filled by the following positions and skips them; v6
    emits one /128 per address. -/
def ipsToSubnetsStrict : List IP → List IPNet
  | [] => []
  | ip :: rest =>
    match ip.to4 with
    | some v =>
      let L := subnetStrictScan v rest 24
      mkV4Subnet v L :: ipsToSubnetsStrict (rest.drop (2 ^ (32 - L) - 1))
    | none => ⟨ip, 128, 128⟩ :: ipsToSubnetsStrict rest
termination_by ips => ips.length
decreasing_by
  · simp only [List.length_drop, List.length_cons]; omega
  · simp only [List.length_cons]; omega

/-- `hostsInSubnet - 1` of the loose subnet scans: the run of consecutive
    following positions contained in the subnet, stopping at the first
    failure and capped by the loop bound. -/
def looseRun (s : IPNet) : Nat → List IP → Nat
  | 0, _ => 0
  | _ + 1, [] => 0
  | cap + 1, x :: xs => if subnetContains s x then looseRun s cap xs + 1 else 0

/-- The `for parentLen := 24; ...` scan of `ipsToSubnetsLoose` for v4
    (lines 1188-1221), threading `previousSubnetHosts`/`previousSubnet`;
    returns the emitted subnet and the number of consumed positions
    (emission at /32 leaves `iAlreadyCovered` untouched, consuming 1). -/
def subnetLooseScan (v : Nat) (rest : List IP) (L prevHosts : Nat) (prevSubnet : IPNet) :
    IPNet × Nat :=
  let s := mkV4Subnet v L
  let hosts := looseRun s (2 ^ (32 - L) - 1) rest + 1
  if prevHosts ≤ hosts then
    if 32 ≤ L then (s, 1)
    else subnetLooseScan v rest (L + 1) hosts s
  else (prevSubnet, prevHosts)
termination_by 32 - L

/-- `ipsToSubnetsLoose` (lines 1172-1251): v4 narrows from /24 while the
    captured run does not shrink; v6 emits the containing /64, merging the
    following positions in the same /64 with a lookahead capped at 1000
    (`for n := 1; n < 1000`, so at most 999 extra positions). -/
def ipsToSubnetsLoose : List IP → List IPNet
  | [] => []
  | ip :: rest =>
    match ip.to4 with
    | some v =>
      let r := subnetLooseScan v rest 24 0 ⟨IP.v4 0, 0, 0⟩
      r.1 :: ipsToSubnetsLoose (rest.drop (r.2 - 1))
    | none =>
      let s : IPNet := ⟨IP.v6 ip.hi64 0, 64, 128⟩
      let hosts := looseRun s 999 rest + 1
      s :: ipsToSubnetsLoose (rest.drop (hosts - 1))
termination_by ips => ips.length
decreasing_by
  · simp only [List.length_drop, List.length_cons]; omega
  · simp only [List.length_drop, List.length_cons]; omega

/-! ### Rendering (`net.IP.String`, `net.IPNet.String`, `IPRange.String`,
    `IPBlock.String` and the `s == t` bare-address rule of the output
    functions) -/

/-- Dotted-quad text of a 32-bit value (`net.IP.String` for v4). -/
def dottedQuad (w : Nat) : String :=
  toString (oct 0 w) ++ "." ++ toString (oct 1 w) ++ "." ++
    toString (oct 2 w) ++ "." ++ toString (oct 3 w)

/-- Lowercase hex text of a 16-bit group, no leading zeros. -/
def hexGroup (n : Nat) : String := String.mk (Nat.toDigits 16 n)

/-- The eight big-endian 16-bit groups of the 16-byte form. -/
def groups16 (x : IP) : List Nat :=
  [x.hi64 / 2 ^ 48 % 65536, x.hi64 / 2 ^ 32 % 65536, x.hi64 / 2 ^ 16 % 65536, x.hi64 % 65536,
   x.lo64 / 2 ^ 48 % 65536, x.lo64 / 2 ^ 32 % 65536, x.lo64 / 2 ^ 16 % 65536, x.lo64 % 65536]

def zeroRunLen : List Nat → Nat
  | 0 :: rest => zeroRunLen rest + 1
  | _ => 0

/-- The zero-group run `net.IP.String` elides: the earliest run of maximal
    length (the Go scan only replaces the best-so-far on a strictly longer
    run, and afterwards discards runs of a single group). -/
def bestZeroRun (gs : List Nat) : Nat × Nat :=
  (List.range gs.length).foldl
    (fun best i =>
      let r := zeroRunLen (gs.drop i)
      if best.2 < r then (i, r) else best) (0, 0)

/-- `net.IP.String` on a 16-byte non-mapped address: hex groups joined by
    ":", with the best zero run of at least two groups replaced by "::". -/
def v6GroupsString (gs : List Nat) : String :=
  let br := bestZeroRun gs
  if 2 ≤ br.2 then
    String.intercalate ":" ((gs.take br.1).map hexGroup) ++ "::" ++
      String.intercalate ":" ((gs.drop (br.1 + br.2)).map hexGroup)
  else String.intercalate ":" (gs.map hexGroup)

/-- `net.IP.String`: dotted quad when `To4` is non-nil, compressed hex
    groups otherwise. -/
def ipString (x : IP) : String :=
  match x.to4 with
  | some w => dottedQuad w
  | none => v6GroupsString (groups16 x)

/-- One line of the subnet output (`outputSubnetListStrict/Loose`, and the
    CSV/JSON/XML writers): when `mask.Size()` returns `s == t` the bare
    address is printed, otherwise `ipNet.String() = IP.String() + "/" + ones`. -/
def subnetLine (s : IPNet) : String :=
  if s.maskOnes = s.maskBits then ipString s.base
  else ipString s.base ++ "/" ++ toString s.maskOnes

/-- `IPRange.String` (lines 438-444). -/
def rangeLine (r : IPRange) : String :=
  if r.StartIP = r.EndIP then ipString r.StartIP
  else ipString r.StartIP ++ " - " ++ ipString r.EndIP

/-- The address whose 16-byte form has the given eight groups (what
    `net.ParseIP` returns on the full-form hex text of those groups). -/
def ipFromGroups (gs : List Nat) : IP :=
  IP.v6
    (gs.getD 0 0 * 2 ^ 48 + gs.getD 1 0 * 2 ^ 32 + gs.getD 2 0 * 2 ^ 16 + gs.getD 3 0)
    (gs.getD 4 0 * 2 ^ 48 + gs.getD 5 0 * 2 ^ 32 + gs.getD 6 0 * 2 ^ 16 + gs.getD 7 0)

/-- Number of leading 16-bit groups on which the two addresses agree
    (the Go loop compares the byte prefixes `[:b+2]`, so after the first
    difference no later group is counted). -/
def commonGroups : List Nat → List Nat → Nat
  | a :: as, b :: bs => if a = b then commonGroups as bs + 1 else 0
  | _, _ => 0

/-- The v6 arm of `IPBlock.String` (lines 530-572) for distinct endpoints:
    the shared leading groups, then the differing suffixes of both ends in
    brackets.  The source shortens each suffix by prefixing fake non-zero
    groups (`1:2:...:`), round-tripping through `net.ParseIP`/`String` and
    stripping the fake prefix again; `firstStr` is colon-joined non-empty
    hex groups and never contains "::", so this branch always runs.  The
    round trip is modelled by applying `ipString` to the address with the
    fake groups and dropping the fake prefix's characters (each fake group
    is a single hex digit plus ":", two characters).  When the stripped
    suffix text begins with ":" the source indexes `firstStr[:len-1]`,
    which panics for an empty `firstStr`; here `dropRight` returns "". -/
def blockLineV6 (sg eg : List Nat) : String :=
  let shared := commonGroups sg eg
  let firstStr := String.join ((sg.take shared).map fun g => hexGroup g ++ ":")
  let fakeGroups := (List.range shared).map (· + 1)
  let startStr := (ipString (ipFromGroups (fakeGroups ++ sg.drop shared))).drop (2 * shared)
  let endStr := (ipString (ipFromGroups (fakeGroups ++ eg.drop shared))).drop (2 * shared)
  if 1 < startStr.length ∧ 1 < endStr.length ∧ startStr.take 1 = ":" ∧ endStr.take 1 = ":"
      ∧ startStr.take 2 ≠ "::" ∧ endStr.take 2 ≠ "::" then
    firstStr ++ ":[" ++ startStr.drop 1 ++ "-" ++ endStr.drop 1 ++ "]"
  else if startStr.take 1 = ":" ∨ endStr.take 1 = ":" then
    firstStr.dropRight 1 ++ "[:" ++ startStr ++ "-:" ++ endStr ++ "]"
  else firstStr ++ "[" ++ startStr ++ "-" ++ endStr ++ "]"

/-- `IPBlock.String` (lines 518-575). -/
def blockLine (b : IPBlock) : String :=
  match b.StartIP.to4, b.EndIP.to4 with
  | some s4, some e4 =>
    if b.StartIP = b.EndIP then ipString b.StartIP
    else if oct 3 s4 ≠ oct 3 e4 then
      toString (oct 0 s4) ++ "." ++ toString (oct 1 s4) ++ "." ++ toString (oct 2 s4) ++
        ".[" ++ toString (oct 3 s4) ++ "-" ++ toString (oct 3 e4) ++ "]"
    else if oct 2 s4 ≠ oct 2 e4 then
      toString (oct 0 s4) ++ "." ++ toString (oct 1 s4) ++ ".[" ++ toString (oct 2 s4) ++
        "-" ++ toString (oct 2 e4) ++ "]." ++ toString (oct 3 s4)
    else ipString b.StartIP
  | _, _ =>
    if b.StartIP = b.EndIP then ipString b.StartIP
    else blockLineV6 (groups16 b.StartIP) (groups16 b.EndIP)

/-! ### Specification-side notions: well-formed family-pure address sets,
    the literal address space denoted by an aggregate, disjointness. -/

/-- A well-formed IPv4 entry: what `net.ParseIP` yields for dotted text. -/
def isWFv4 : IP → Bool
  | .v4 v => decide (v < 2 ^ 32)
  | .v6 _ _ => false

/-- A well-formed genuine IPv6 entry (not the v4-mapped form, which the
    program treats as IPv4 wherever it branches on `To4`). -/
def isWFv6 : IP → Bool
  | .v4 _ => false
  | .v6 hi lo => decide (hi < 2 ^ 64) && decide (lo < 2 ^ 64) && !(IP.v6 hi lo).to4.isSome

def AllV4 (ips : List IP) : Prop := ∀ ip ∈ ips, isWFv4 ip = true

def AllV6 (ips : List IP) : Prop := ∀ ip ∈ ips, isWFv6 ip = true

/-- Sorted and deduplicated as `sortIPs` guarantees for a family-pure list:
    strictly ascending numeric values. -/
def SortedDedup (ips : List IP) : Prop :=
  List.Chain' (fun a b => ipVal a < ipVal b) ips

/-- The literal address space of a subnet: all same-family addresses whose
    leading `maskOnes` bits agree with the base. -/
def subnetSpace (s : IPNet) (x : IP) : Prop :=
  if s.maskBits = 32 then
    match s.base, x with
    | IP.v4 b, IP.v4 w => w / 2 ^ (32 - s.maskOnes) = b / 2 ^ (32 - s.maskOnes)
    | _, _ => False
  else
    match s.base, x with
    | IP.v6 bhi blo, IP.v6 xhi xlo =>
      (xhi * 2 ^ 64 + xlo) / 2 ^ (128 - s.maskOnes) =
        (bhi * 2 ^ 64 + blo) / 2 ^ (128 - s.maskOnes)
    | _, _ => False

/-- The literal address space of a range: all same-family addresses whose
    value lies between the endpoints' values (inclusive). -/
def rangeSpace (r : IPRange) (x : IP) : Prop :=
  match r.StartIP, r.EndIP, x with
  | IP.v4 s, IP.v4 e, IP.v4 w => s ≤ w ∧ w ≤ e
  | IP.v6 shi slo, IP.v6 ehi elo, IP.v6 xhi xlo =>
    shi * 2 ^ 64 + slo ≤ xhi * 2 ^ 64 + xlo ∧ xhi * 2 ^ 64 + xlo ≤ ehi * 2 ^ 64 + elo
  | _, _, _ => False

/-- The value the containment queries compare: the unsigned 32-bit value
    for v4-family addresses (what `binary.BigEndian.Uint32(ip.To4())`
    reads), the 128-bit value for genuine v6 addresses. -/
def famVal (x : IP) : Nat :=
  match x.to4 with
  | some w => w
  | none => ipVal x

/-- The value interval a subnet denotes inside its family. -/
def subnetInterval (s : IPNet) : Nat × Nat :=
  (ipVal s.base, ipVal s.base + (2 ^ (s.maskBits - s.maskOnes) - 1))

def rangeInterval (r : IPRange) : Nat × Nat := (ipVal r.StartIP, ipVal r.EndIP)

def blockInterval (b : IPBlock) : Nat × Nat := (ipVal b.StartIP, ipVal b.EndIP)

/-- A list of value intervals that is pairwise disjoint and ascending by
    start. -/
def DisjointAscending (l : List (Nat × Nat)) : Prop :=
  List.Pairwise (fun A B => A.2 < B.1 ∨ B.2 < A.1) l ∧
    List.Chain' (fun A B => A.1 < B.1) l

/-! ### Fueled twins of the well-founded recursions.

    The scan functions above recurse on a dropped suffix or an increasing
    prefix length, so their equations are not definitional and closed
    instances cannot be evaluated by the kernel.  Each gets a structurally
    recursive twin with an explicit fuel argument, proved equal when the
    fuel suffices; concrete inputs are evaluated through the twin. -/

def scanAggregateF (cond : IP → Nat → IP → Bool) : Nat → List IP → List (IP × IP)
  | _, [] => []
  | 0, _ :: _ => []
  | fuel + 1, ip :: rest =>
    let k := runLength (cond ip) 1 rest
    (ip, (ip :: rest).getD k ip) :: scanAggregateF cond fuel (rest.drop k)

def subnetStrictScanF (v : Nat) (rest : List IP) : Nat → Nat → Nat
  | fuel, L =>
    if 32 ≤ L then 32
    else if subnetStrictAccept v rest L then L
    else
      match fuel with
      | 0 => 32
      | fuel + 1 => subnetStrictScanF v rest fuel (L + 1)

def ipsToSubnetsStrictF : Nat → List IP → List IPNet
  | _, [] => []
  | 0, _ :: _ => []
  | fuel + 1, ip :: rest =>
    match ip.to4 with
    | some v =>
      let L := subnetStrictScanF v rest 8 24
      mkV4Subnet v L :: ipsToSubnetsStrictF fuel (rest.drop (2 ^ (32 - L) - 1))
    | none => ⟨ip, 128, 128⟩ :: ipsToSubnetsStrictF fuel rest

def subnetLooseScanF (v : Nat) (rest : List IP) :
    Nat → Nat → Nat → IPNet → IPNet × Nat
  | fuel, L, prevHosts, prevSubnet =>
    let s := mkV4Subnet v L
    let hosts := looseRun s (2 ^ (32 - L) - 1) rest + 1
    if prevHosts ≤ hosts then
      if 32 ≤ L then (s, 1)
      else
        match fuel with
        | 0 => (s, 1)
        | fuel + 1 => subnetLooseScanF v rest fuel (L + 1) hosts s
    else (prevSubnet, prevHosts)

def ipsToSubnetsLooseF : Nat → List IP → List IPNet
  | _, [] => []
  | 0, _ :: _ => []
  | fuel + 1, ip :: rest =>
    match ip.to4 with
    | some v =>
      let r := subnetLooseScanF v rest 8 24 0 ⟨IP.v4 0, 0, 0⟩
      r.1 :: ipsToSubnetsLooseF fuel (rest.drop (r.2 - 1))
    | none =>
      let s : IPNet := ⟨IP.v6 ip.hi64 0, 64, 128⟩
      let hosts := looseRun s 999 rest + 1
      s :: ipsToSubnetsLooseF fuel (rest.drop (hosts - 1))

/-! ### Basic lemmas about runs and sorted lists -/

instance : IsTrans IP (fun a b => ipVal a < ipVal b) :=
  ⟨fun _ _ _ h h2 => Nat.lt_trans h h2⟩

theorem runLength_le (p : Nat → IP → Bool) :
    ∀ (n : Nat) (l : List IP), runLength p n l ≤ l.length := by
  intro n l
  induction l generalizing n with
  | nil => simp [runLength]
  | cons x xs ih =>
    simp only [runLength, List.length_cons]
    split
    · exact Nat.succ_le_succ (ih _)
    · exact Nat.zero_le _

theorem runLength_true (p : Nat → IP → Bool) :
    ∀ (n : Nat) (l : List IP) (j : Nat), j < runLength p n l →
      p (n + j) (l.getD j (IP.v4 0)) = true := by
  intro n l
  induction l generalizing n with
  | nil => simp [runLength]
  | cons x xs ih =>
    intro j hj
    cases hpb : p n x with
    | false => simp [runLength, hpb] at hj
    | true =>
      simp only [runLength, hpb, if_true] at hj
      cases j with
      | zero => simpa using hpb
      | succ j =>
        simp only [List.getD_cons_succ]
        have hstep := ih (n + 1) j (by omega)
        have harith : n + 1 + j = n + (j + 1) := by omega
        rw [harith] at hstep
        exact hstep

theorem runLength_stop (p : Nat → IP → Bool) :
    ∀ (n : Nat) (l : List IP), runLength p n l < l.length →
      p (n + runLength p n l) (l.getD (runLength p n l) (IP.v4 0)) = false := by
  intro n l
  induction l generalizing n with
  | nil => simp [runLength]
  | cons x xs ih =>
    intro hlt
    cases hpb : p n x with
    | false => simp [runLength, hpb]
    | true =>
      simp only [runLength, hpb, if_true, List.length_cons] at hlt ⊢
      simp only [List.getD_cons_succ]
      have hstep := ih (n + 1) (by omega)
      have harith : n + 1 + runLength p (n + 1) xs = n + (runLength p (n + 1) xs + 1) := by
        omega
      rw [harith] at hstep
      exact hstep

theorem sortedDedup_pairwise {ips : List IP} (h : SortedDedup ips) :
    List.Pairwise (fun a b => ipVal a < ipVal b) ips :=
  List.chain'_iff_pairwise.mp h

theorem sortedDedup_of_pairwise {ips : List IP}
    (h : List.Pairwise (fun a b => ipVal a < ipVal b) ips) : SortedDedup ips :=
  List.chain'_iff_pairwise.mpr h

theorem sortedDedup_drop {ips : List IP} (h : SortedDedup ips) (k : Nat) :
    SortedDedup (ips.drop k) :=
  sortedDedup_of_pairwise ((sortedDedup_pairwise h).sublist (List.drop_sublist k ips))

theorem sortedDedup_tail {ip : IP} {rest : List IP} (h : SortedDedup (ip :: rest)) :
    SortedDedup rest :=
  List.Chain'.tail h

theorem sorted_lt {ips : List IP} (h : SortedDedup ips) {i j : Nat}
    (hij : i < j) (hj : j < ips.length) :
    ipVal (ips.getD i (IP.v4 0)) < ipVal (ips.getD j (IP.v4 0)) := by
  have hp := List.pairwise_iff_getElem.mp (sortedDedup_pairwise h)
  have hi : i < ips.length := Nat.lt_trans hij hj
  rw [List.getD_eq_getElem _ _ hi, List.getD_eq_getElem _ _ hj]
  exact hp i j hi hj hij

theorem sorted_add_le {ips : List IP} (h : SortedDedup ips) {i j : Nat}
    (hij : i ≤ j) (hj : j < ips.length) :
    ipVal (ips.getD i (IP.v4 0)) + (j - i) ≤ ipVal (ips.getD j (IP.v4 0)) := by
  induction j with
  | zero =>
    have : i = 0 := Nat.le_zero.mp hij
    subst this; simp
  | succ j ih =>
    rcases Nat.lt_or_ge i (j + 1) with hlt | hge
    · have hij' : i ≤ j := by omega
      have hacc := ih hij' (by omega)
      have hstep : ipVal (ips.getD j (IP.v4 0)) < ipVal (ips.getD (j + 1) (IP.v4 0)) :=
        sorted_lt h (by omega) hj
      show ipVal (ips.getD i (IP.v4 0)) + (j + 1 - i) ≤ ipVal (ips.getD (j + 1) (IP.v4 0))
      omega
    · have : i = j + 1 := by omega
      subst this; simp

theorem getD_mem_of_lt {l : List IP} {n : Nat} {d : IP} (h : n < l.length) :
    l.getD n d ∈ l := by
  rw [List.getD_eq_getElem _ _ h]; exact List.getElem_mem h

theorem getD_default_irrel {l : List IP} {n : Nat} (h : n < l.length) (d d' : IP) :
    l.getD n d = l.getD n d' := by
  rw [List.getD_eq_getElem _ _ h, List.getD_eq_getElem _ _ h]

theorem drop_head_getD {l : List IP} {k : Nat} {y : IP} {ys : List IP}
    (h : l.drop k = y :: ys) : y = l.getD k (IP.v4 0) ∧ k < l.length := by
  have hk : k < l.length := by
    by_contra hk
    rw [List.drop_eq_nil_of_le (by omega)] at h
    cases h
  refine ⟨?_, hk⟩
  have hy : (l.drop k).getD 0 (IP.v4 0) = y := by
    rw [h, List.getD_cons_zero]
  rw [← hy, List.getD_eq_getElem?_getD, List.getD_eq_getElem?_getD,
    List.getElem?_drop, Nat.add_zero]

theorem allV4_tail {ip : IP} {rest : List IP} (h : AllV4 (ip :: rest)) : AllV4 rest :=
  fun x hx => h x (List.mem_cons_of_mem _ hx)

theorem allV4_drop {ips : List IP} (h : AllV4 ips) (k : Nat) : AllV4 (ips.drop k) :=
  fun x hx => h x (List.mem_of_mem_drop hx)

theorem allV6_tail {ip : IP} {rest : List IP} (h : AllV6 (ip :: rest)) : AllV6 rest :=
  fun x hx => h x (List.mem_cons_of_mem _ hx)

theorem allV6_drop {ips : List IP} (h : AllV6 ips) (k : Nat) : AllV6 (ips.drop k) :=
  fun x hx => h x (List.mem_of_mem_drop hx)

theorem allV4_shape {ips : List IP} (h : AllV4 ips) {x : IP} (hx : x ∈ ips) :
    ∃ v, x = IP.v4 v ∧ v < 2 ^ 32 := by
  have := h x hx
  cases x with
  | v4 v => exact ⟨v, rfl, by simpa [isWFv4] using this⟩
  | v6 hi lo => simp [isWFv4] at this

theorem allV6_shape {ips : List IP} (h : AllV6 ips) {x : IP} (hx : x ∈ ips) :
    ∃ hi lo, x = IP.v6 hi lo ∧ hi < 2 ^ 64 ∧ lo < 2 ^ 64 ∧ (IP.v6 hi lo).to4 = none := by
  have := h x hx
  cases x with
  | v4 v => simp [isWFv6] at this
  | v6 hi lo =>
    simp only [isWFv6, Bool.and_eq_true, decide_eq_true_eq, Bool.not_eq_true'] at this
    obtain ⟨⟨h1, h2⟩, h3⟩ := this
    refine ⟨hi, lo, rfl, h1, h2, ?_⟩
    cases hc : (IP.v6 hi lo).to4 with
    | none => rfl
    | some w => rw [hc] at h3; simp at h3

/-! ### Structure of the greedy scans -/

theorem scanAggregate_nil (cond : IP → Nat → IP → Bool) :
    scanAggregate cond [] = [] := by
  rw [scanAggregate]

theorem scanAggregate_cons (cond : IP → Nat → IP → Bool) (ip : IP) (rest : List IP) :
    scanAggregate cond (ip :: rest) =
      (ip, (ip :: rest).getD (runLength (cond ip) 1 rest) ip) ::
        scanAggregate cond (rest.drop (runLength (cond ip) 1 rest)) := by
  rw [scanAggregate]

theorem scanAggregate_eq_fuel (cond : IP → Nat → IP → Bool) :
    ∀ ips : List IP, ∀ fuel, ips.length ≤ fuel →
      scanAggregate cond ips = scanAggregateF cond fuel ips := by
  intro ips
  induction ips using scanAggregate.induct cond with
  | case1 => intro fuel _; cases fuel <;> simp [scanAggregate_nil, scanAggregateF]
  | case2 ip rest k ih =>
    intro fuel hfuel
    cases fuel with
    | zero => simp at hfuel
    | succ fuel =>
      rw [scanAggregate_cons, scanAggregateF]
      have hlen : (rest.drop k).length ≤ fuel := by
        simp only [List.length_drop]
        simp only [List.length_cons] at hfuel
        omega
      rw [ih fuel hlen]

theorem subnetStrictScan_eq_fuel (v : Nat) (rest : List IP) :
    ∀ fuel L, 32 - L ≤ fuel →
      subnetStrictScan v rest L = subnetStrictScanF v rest fuel L := by
  intro fuel
  induction fuel with
  | zero =>
    intro L hL
    rw [subnetStrictScan, subnetStrictScanF]
    have h32 : 32 ≤ L := by omega
    simp [h32]
  | succ fuel ih =>
    intro L hL
    rw [subnetStrictScan, subnetStrictScanF]
    by_cases h32 : 32 ≤ L
    · simp [h32]
    · by_cases hacc : subnetStrictAccept v rest L
      · simp [h32, hacc]
      · simp only [h32, if_false, hacc, Bool.false_eq_true]
        exact ih (L + 1) (by omega)

theorem ipsToSubnetsStrict_eq_fuel :
    ∀ ips : List IP, ∀ fuel, ips.length ≤ fuel →
      ipsToSubnetsStrict ips = ipsToSubnetsStrictF fuel ips := by
  intro ips
  induction ips using ipsToSubnetsStrict.induct with
  | case1 => intro fuel _; cases fuel <;> simp [ipsToSubnetsStrict, ipsToSubnetsStrictF]
  | case2 ip rest v hv L ih =>
    intro fuel hfuel
    cases fuel with
    | zero => simp at hfuel
    | succ fuel =>
      rw [ipsToSubnetsStrict, ipsToSubnetsStrictF]
      simp only [hv]
      rw [← subnetStrictScan_eq_fuel v rest 8 24 (by omega)]
      rw [ih fuel (by simp only [List.length_drop]; simp only [List.length_cons] at hfuel; omega)]
  | case3 ip rest hv ih =>
    intro fuel hfuel
    cases fuel with
    | zero => simp at hfuel
    | succ fuel =>
      rw [ipsToSubnetsStrict, ipsToSubnetsStrictF]
      simp only [hv]
      rw [ih fuel (by simp only [List.length_cons] at hfuel; omega)]

theorem subnetLooseScan_eq_fuel (v : Nat) (rest : List IP) :
    ∀ fuel L prevHosts prevSubnet, 32 - L ≤ fuel →
      subnetLooseScan v rest L prevHosts prevSubnet =
        subnetLooseScanF v rest fuel L prevHosts prevSubnet := by
  intro fuel
  induction fuel with
  | zero =>
    intro L ph ps hL
    rw [subnetLooseScan, subnetLooseScanF]
    have h32 : 32 ≤ L := by omega
    simp [h32]
  | succ fuel ih =>
    intro L ph ps hL
    rw [subnetLooseScan, subnetLooseScanF]
    by_cases h32 : 32 ≤ L
    · simp [h32]
    · simp only [h32, if_false]
      by_cases hle : ph ≤ looseRun (mkV4Subnet v L) (2 ^ (32 - L) - 1) rest + 1
      · simp only [hle, if_true]
        exact ih (L + 1) _ _ (by omega)
      · simp [hle]

theorem ipsToSubnetsLoose_eq_fuel :
    ∀ ips : List IP, ∀ fuel, ips.length ≤ fuel →
      ipsToSubnetsLoose ips = ipsToSubnetsLooseF fuel ips := by
  intro ips
  induction ips using ipsToSubnetsLoose.induct with
  | case1 => intro fuel _; cases fuel <;> simp [ipsToSubnetsLoose, ipsToSubnetsLooseF]
  | case2 ip rest v hv r ih =>
    intro fuel hfuel
    cases fuel with
    | zero => simp at hfuel
    | succ fuel =>
      rw [ipsToSubnetsLoose, ipsToSubnetsLooseF]
      simp only [hv]
      rw [← subnetLooseScan_eq_fuel v rest 8 24 0 ⟨IP.v4 0, 0, 0⟩ (by omega)]
      rw [ih fuel (by simp only [List.length_drop]; simp only [List.length_cons] at hfuel; omega)]
  | case3 ip rest hv s hosts ih =>
    intro fuel hfuel
    cases fuel with
    | zero => simp at hfuel
    | succ fuel =>
      rw [ipsToSubnetsLoose, ipsToSubnetsLooseF]
      simp only [hv]
      rw [ih fuel (by simp only [List.length_drop]; simp only [List.length_cons] at hfuel; omega)]

/-- Every aggregate a scan emits has both endpoints in the input, with the
    start value at most the end value, and consecutive aggregates are
    separated: the end value of one is below the start value of the next.
    Holds for any step condition on a sorted deduplicated input. -/
theorem scanAggregate_sep (cond : IP → Nat → IP → Bool) :
    ∀ ips : List IP, SortedDedup ips →
      (∀ p ∈ scanAggregate cond ips, p.1 ∈ ips ∧ p.2 ∈ ips ∧ ipVal p.1 ≤ ipVal p.2) ∧
      List.Chain' (fun p q => ipVal p.2 < ipVal q.1) (scanAggregate cond ips) := by
  intro ips
  induction ips using scanAggregate.induct cond with
  | case1 => intro _; simp [scanAggregate_nil]
  | case2 ip rest k ih =>
    intro hs
    obtain ⟨ihmem, ihch⟩ := ih (sortedDedup_drop (sortedDedup_tail hs) k)
    have hkle : k ≤ rest.length := runLength_le _ _ _
    have hendmem : (ip :: rest).getD k ip ∈ ip :: rest :=
      getD_mem_of_lt (by simp; omega)
    have hendval : ipVal ip ≤ ipVal ((ip :: rest).getD k ip) := by
      cases Nat.eq_zero_or_pos k with
      | inl h0 => rw [h0]; simp
      | inr hpos =>
        have hlen : k < (ip :: rest).length := by simp; omega
        rw [getD_default_irrel hlen ip (IP.v4 0)]
        have hlt := sorted_lt hs (i := 0) (j := k) hpos hlen
        simp only [List.getD_cons_zero] at hlt
        exact Nat.le_of_lt hlt
    rw [scanAggregate_cons]
    constructor
    · intro p hp
      rcases List.mem_cons.mp hp with rfl | hp'
      · exact ⟨List.mem_cons_self _ _, hendmem, hendval⟩
      · obtain ⟨h1, h2, h3⟩ := ihmem p hp'
        exact ⟨List.mem_cons_of_mem _ (List.mem_of_mem_drop h1),
               List.mem_cons_of_mem _ (List.mem_of_mem_drop h2), h3⟩
    · cases hdrop : rest.drop k with
      | nil => simp [hdrop, scanAggregate_nil] at ihch ⊢
      | cons y ys =>
        rw [scanAggregate_cons, List.chain'_cons]
        rw [hdrop, scanAggregate_cons] at ihch
        refine ⟨?_, ihch⟩
        obtain ⟨hy, hklen⟩ := drop_head_getD hdrop
        have hkl : k < (ip :: rest).length := by simp; omega
        have hklen2 : k + 1 < (ip :: rest).length := by simp; omega
        have hlt := sorted_lt hs (i := k) (j := k + 1) (by omega) hklen2
        rw [List.getD_cons_succ] at hlt
        rw [← hy] at hlt
        rw [getD_default_irrel hkl ip (IP.v4 0)]
        exact hlt

/-- Prefix-to-everything form of the separation chain. -/
theorem sep_head_all {l : List (Nat × Nat)} {x : Nat × Nat}
    (hle : ∀ A ∈ l, A.1 ≤ A.2)
    (hch : List.Chain' (fun A B => A.2 < B.1) (x :: l)) :
    ∀ B ∈ l, x.2 < B.1 := by
  induction l generalizing x with
  | nil => simp
  | cons y ys ih =>
    intro B hB
    rw [List.chain'_cons] at hch
    rcases List.mem_cons.mp hB with rfl | hB'
    · exact hch.1
    · have hy := hle y (by simp)
      have := ih (fun A hA => hle A (by simp [hA])) hch.2 B hB'
      omega

/-- A list of intervals with nondecreasing members, separated in the chain
    sense, is pairwise disjoint and ascending by interval start. -/
theorem disjointAscending_of_sep (l : List (Nat × Nat))
    (hle : ∀ A ∈ l, A.1 ≤ A.2) (hch : List.Chain' (fun A B => A.2 < B.1) l) :
    DisjointAscending l := by
  induction l with
  | nil => exact ⟨List.Pairwise.nil, List.chain'_nil⟩
  | cons x xs ih =>
    have hle' : ∀ A ∈ xs, A.1 ≤ A.2 := fun A hA => hle A (List.mem_cons_of_mem _ hA)
    obtain ⟨hp, hasc⟩ := ih hle' hch.tail
    have hall := sep_head_all hle' hch
    refine ⟨List.Pairwise.cons (fun B hB => Or.inl (hall B hB)) hp, ?_⟩
    cases xs with
    | nil => exact List.chain'_singleton x
    | cons y ys =>
      rw [List.chain'_cons]
      have hxy : x.2 < y.1 := hall y (by simp)
      have hx := hle x (by simp)
      exact ⟨by omega, hasc⟩

theorem runLength_congr {p q : Nat → IP → Bool} (h : ∀ n x, p n x = q n x) :
    ∀ (n : Nat) (l : List IP), runLength p n l = runLength q n l := by
  intro n l
  induction l generalizing n with
  | nil => simp [runLength]
  | cons x xs ih => simp [runLength, h, ih]

theorem scanAggregate_congr (c1 c2 : IP → Nat → IP → Bool) :
    ∀ ips : List IP, (∀ ip ∈ ips, ∀ n x, c1 ip n x = c2 ip n x) →
      scanAggregate c1 ips = scanAggregate c2 ips := by
  intro ips
  induction ips using scanAggregate.induct c1 with
  | case1 => intro _; rw [scanAggregate_nil, scanAggregate_nil]
  | case2 ip rest k ih =>
    intro hc
    have hk : runLength (c2 ip) 1 rest = k :=
      (runLength_congr (hc ip (List.mem_cons_self _ _)) 1 rest).symm
    rw [scanAggregate_cons, scanAggregate_cons, hk]
    have htail := ih fun x hx n y =>
      hc x (List.mem_cons_of_mem _ (List.mem_of_mem_drop hx)) n y
    rw [htail]

theorem sorted_head_le {d : IP} {t : List IP} (hs : SortedDedup (d :: t)) :
    ∀ y ∈ d :: t, ipVal d ≤ ipVal y := by
  intro y hy
  rcases List.mem_cons.mp hy with rfl | hy'
  · exact Nat.le_refl _
  · have hp := sortedDedup_pairwise hs
    exact Nat.le_of_lt ((List.pairwise_cons.mp hp).1 y hy')

/-! ### Claims about rendering and containment -/

/-- C3: on the input set {10.0.0.1, 10.0.0.2, 10.0.0.3}, the strict subnet
    aggregation renders as the two lines ["10.0.0.1", "10.0.0.2/31"], and
    the loose subnet aggregation renders as the single line ["10.0.0.0/30"]. -/
theorem claim_C3_subnet_examples :
    (ipsToSubnetsStrict [IP.v4 0x0A000001, IP.v4 0x0A000002, IP.v4 0x0A000003]).map
        subnetLine = ["10.0.0.1", "10.0.0.2/31"] ∧
      (ipsToSubnetsLoose [IP.v4 0x0A000001, IP.v4 0x0A000002, IP.v4 0x0A000003]).map
        subnetLine = ["10.0.0.0/30"] := by
  constructor
  · rw [ipsToSubnetsStrict_eq_fuel _ 3 (by decide)]; rfl
  · rw [ipsToSubnetsLoose_eq_fuel _ 3 (by decide)]; rfl

/-- C7: on an IPv6-only (well-formed, non-mapped) list, the block
    aggregators produce exactly the same (StartAddress, EndAddress) pairs,
    in the same order, as the range aggregators of the same policy. -/
theorem claim_C7_v6_blocks_are_ranges (ips : List IP)
    (hs : SortedDedup ips) (h6 : AllV6 ips) :
    (ipsToIPBlocksStrict ips).map (fun b => (b.StartIP, b.EndIP)) =
        (ipsToIPRangesStrict ips).map (fun r => (r.StartIP, r.EndIP)) ∧
      (ipsToIPBlocksLoose ips).map (fun b => (b.StartIP, b.EndIP)) =
        (ipsToIPRangesLoose ips).map (fun r => (r.StartIP, r.EndIP)) := by
  have hnone : ∀ ip ∈ ips, ip.to4 = none := by
    intro ip hip
    obtain ⟨hi, lo, rfl, _, _, h⟩ := allV6_shape h6 hip
    exact h
  constructor
  · rw [ipsToIPBlocksStrict, ipsToIPRangesStrict,
      scanAggregate_congr blockStrictCond rangeStrictCond ips ?_]
    · simp
    · intro ip hip n x
      simp only [blockStrictCond.eq_def, rangeStrictCond.eq_def, hnone ip hip]
  · rw [ipsToIPBlocksLoose, ipsToIPRangesLoose,
      scanAggregate_congr blockLooseCond rangeLooseCond ips ?_]
    · simp
    · intro ip hip n x
      simp only [blockLooseCond.eq_def, rangeLooseCond.eq_def, hnone ip hip]

theorem claim_C7_witness :
    (ipsToIPBlocksStrict [IP.v6 1 5, IP.v6 1 6]).map (fun b => (b.StartIP, b.EndIP)) =
        (ipsToIPRangesStrict [IP.v6 1 5, IP.v6 1 6]).map (fun r => (r.StartIP, r.EndIP)) ∧
      (ipsToIPBlocksLoose [IP.v6 1 5, IP.v6 1 6]).map (fun b => (b.StartIP, b.EndIP)) =
        (ipsToIPRangesLoose [IP.v6 1 5, IP.v6 1 6]).map (fun r => (r.StartIP, r.EndIP)) :=
  claim_C7_v6_blocks_are_ranges [IP.v6 1 5, IP.v6 1 6]
    (by constructor <;> simp [ipVal]) (by intro ip hip; fin_cases hip <;> decide)

/-- C9: a one-address aggregate renders as the plain text of the address:
    a Range or Block with Start = End renders as the bare address string,
    and a subnet whose prefix length equals the full address width renders
    as the bare address, never in CIDR form. -/
theorem claim_C9_singleton_render (a : IP) (s : IPNet) (h : s.maskOnes = s.maskBits) :
    rangeLine ⟨a, a⟩ = ipString a ∧ blockLine ⟨a, a⟩ = ipString a ∧
      subnetLine s = ipString s.base := by
  refine ⟨by simp [rangeLine], ?_, by simp [subnetLine, h]⟩
  cases hc : a.to4 <;> simp [blockLine, hc]

theorem claim_C9_witness :
    rangeLine ⟨IP.v4 167772161, IP.v4 167772161⟩ = ipString (IP.v4 167772161) ∧
      blockLine ⟨IP.v4 167772161, IP.v4 167772161⟩ = ipString (IP.v4 167772161) ∧
      subnetLine ⟨IP.v4 167772161, 32, 32⟩ = ipString (IP.v4 167772161) :=
  claim_C9_singleton_render (IP.v4 167772161) ⟨IP.v4 167772161, 32, 32⟩ rfl

/-- C10: a containment query against a Range or Block whose endpoints are
    of one family, with an address of the other family, returns false
    (total, silently negative). -/
theorem claim_C10_mixed_family (r : IPRange) (b : IPBlock) (x : IP)
    (hrx : (r.StartIP.to4.isSome = true ∧ r.EndIP.to4.isSome = true ∧ x.to4 = none) ∨
           (r.StartIP.to4 = none ∧ r.EndIP.to4 = none ∧ x.to4.isSome = true))
    (hbx : (b.StartIP.to4.isSome = true ∧ b.EndIP.to4.isSome = true ∧ x.to4 = none) ∨
           (b.StartIP.to4 = none ∧ b.EndIP.to4 = none ∧ x.to4.isSome = true)) :
    ipRangeContains r x = false ∧ ipBlockContains b x = false := by
  constructor
  · rw [ipRangeContains]
    rcases hrx with ⟨h1, h2, h3⟩ | ⟨h1, h2, h3⟩ <;> simp [h1, h2, h3]
  · rw [ipBlockContains]
    rcases hbx with ⟨h1, h2, h3⟩ | ⟨h1, h2, h3⟩ <;> simp [h1, h2, h3]

theorem claim_C10_witness :
    ipRangeContains ⟨IP.v4 1, IP.v4 5⟩ (IP.v6 7 7) = false ∧
      ipBlockContains ⟨IP.v4 1, IP.v4 5⟩ (IP.v6 7 7) = false :=
  claim_C10_mixed_family ⟨IP.v4 1, IP.v4 5⟩ ⟨IP.v4 1, IP.v4 5⟩ (IP.v6 7 7)
    (Or.inl ⟨rfl, rfl, by decide⟩) (Or.inl ⟨rfl, rfl, by decide⟩)

/-- C8: for a Range (and a Block) whose endpoints are well-formed addresses
    of one family with Start ≤ End, and an address of that family, the
    containment query returns true exactly when
    Start ≤ address ≤ End under unsigned big-endian comparison (for v6 the
    128-bit value formed from the two 64-bit halves). -/
theorem claim_C8_contains_iff (s e x : IP)
    (hfam : (s.to4.isSome = true ∧ e.to4.isSome = true ∧ x.to4.isSome = true) ∨
            (s.to4 = none ∧ e.to4 = none ∧ x.to4 = none))
    (hwf : s.WF ∧ e.WF ∧ x.WF) (hle : famVal s ≤ famVal e) :
    (ipRangeContains ⟨s, e⟩ x = true ↔ famVal s ≤ famVal x ∧ famVal x ≤ famVal e) ∧
      (ipBlockContains ⟨s, e⟩ x = true ↔ famVal s ≤ famVal x ∧ famVal x ≤ famVal e) := by
  rcases hfam with ⟨h1, h2, h3⟩ | ⟨h1, h2, h3⟩
  · obtain ⟨sv, hs⟩ := Option.isSome_iff_exists.mp h1
    obtain ⟨ev, he⟩ := Option.isSome_iff_exists.mp h2
    obtain ⟨xv, hx⟩ := Option.isSome_iff_exists.mp h3
    rw [ipRangeContains, ipBlockContains]
    simp [hs, he, hx, famVal]
  · cases s with
    | v6 shi slo =>
      cases e with
      | v6 ehi elo =>
        cases x with
        | v6 xhi xlo =>
          obtain ⟨⟨hs1, hs2⟩, ⟨he1, he2⟩, hx1, hx2⟩ := hwf
          rw [ipRangeContains, ipBlockContains]
          simp only [famVal, h1, h2, h3, ipVal, IP.hi64, IP.lo64,
            Option.isSome_none, Bool.not_false, Bool.false_and, Bool.and_self,
            Bool.and_false, Bool.false_eq_true, if_false, Bool.and_true, Bool.true_and,
            if_true, decide_eq_true_eq] at hle ⊢
          constructor <;> constructor <;> intro hcase <;> omega
        | v4 xv => rw [IP.to4] at h3; cases h3
      | v4 ev => rw [IP.to4] at h2; cases h2
    | v4 sv => rw [IP.to4] at h1; cases h1

theorem claim_C8_witness :
    ((ipRangeContains ⟨IP.v4 10, IP.v4 20⟩ (IP.v4 15) = true ↔
        famVal (IP.v4 10) ≤ famVal (IP.v4 15) ∧ famVal (IP.v4 15) ≤ famVal (IP.v4 20)) ∧
      (ipBlockContains ⟨IP.v4 10, IP.v4 20⟩ (IP.v4 15) = true ↔
        famVal (IP.v4 10) ≤ famVal (IP.v4 15) ∧ famVal (IP.v4 15) ≤ famVal (IP.v4 20))) :=
  claim_C8_contains_iff (IP.v4 10) (IP.v4 20) (IP.v4 15)
    (Or.inl ⟨rfl, rfl, rfl⟩)
    ⟨by show (10 : Nat) < 2 ^ 32; decide, by show (20 : Nat) < 2 ^ 32; decide,
      by show (15 : Nat) < 2 ^ 32; decide⟩ (by decide)

/-! ### The scans as partitions into maximal runs -/

theorem getLastD_take {l : List IP} {k : Nat} (d : IP) (h1 : 0 < k) (h2 : k ≤ l.length) :
    (l.take k).getLastD d = l.getD (k - 1) d := by
  rw [List.getLastD_eq_getLast?, List.getLast?_eq_getElem?]
  have hlen : (l.take k).length = k := by simp [List.length_take]; omega
  rw [hlen, List.getElem?_take]
  have hk1 : k - 1 < k := by omega
  simp only [hk1, if_true]
  rw [List.getElem?_eq_getElem (by omega), List.getD_eq_getElem _ _ (by omega)]
  rfl

theorem getD_take {l : List IP} {k j : Nat} (hj : j < k) (hk : k ≤ l.length) :
    (l.take k).getD j (IP.v4 0) = l.getD j (IP.v4 0) := by
  have h1 : j < (l.take k).length := by simp [List.length_take]; omega
  rw [List.getD_eq_getElem _ _ h1, List.getD_eq_getElem _ _ (by omega), List.getElem_take]

theorem cons_take_getLastD (ip : IP) (rest : List IP) (k : Nat) (hk : k ≤ rest.length) :
    (ip :: rest.take k).getLastD (IP.v4 0) = (ip :: rest).getD k ip := by
  cases k with
  | zero => simp
  | succ k0 =>
    rw [List.getLastD_cons, getLastD_take ip (by omega) hk]
    simp only [List.getD_cons_succ, Nat.succ_sub_one]

theorem flatten_head_getD {c : List IP} {cs : List (List IP)} (hc : c ≠ []) :
    ((c :: cs).flatten).getD 0 (IP.v4 0) = c.getD 0 (IP.v4 0) := by
  cases c with
  | nil => exact absurd rfl hc
  | cons z zs => simp [List.flatten_cons]

theorem chain'_of_chain'_mem {α : Type} {R S : α → α → Prop} {l : List α}
    (himp : ∀ a ∈ l, ∀ b ∈ l, R a b → S a b) (h : List.Chain' R l) : List.Chain' S l := by
  rw [List.chain'_iff_get] at h ⊢
  intro i hi
  exact himp _ (l.get_mem _ _) _ (l.get_mem _ _) (h i hi)

/-- Every greedy scan decomposes its input into consecutive nonempty
    chunks: inside a chunk every element satisfies the step condition
    relative to the chunk's first element and its position, adjacent
    chunks are separated by a failing step, and the scan's output is the
    (first, last) pair of each chunk. -/
theorem scanAggregate_partition (cond : IP → Nat → IP → Bool) :
    ∀ ips : List IP, ∃ chunks : List (List IP),
      chunks.flatten = ips ∧
      (∀ c ∈ chunks, c ≠ []) ∧
      (∀ c ∈ chunks, ∀ j, j + 1 < c.length →
          cond (c.getD 0 (IP.v4 0)) (j + 1) (c.getD (j + 1) (IP.v4 0)) = true) ∧
      List.Chain' (fun c d =>
          cond (c.getD 0 (IP.v4 0)) c.length (d.getD 0 (IP.v4 0)) = false) chunks ∧
      scanAggregate cond ips =
        chunks.map (fun c => (c.getD 0 (IP.v4 0), c.getLastD (IP.v4 0))) := by
  intro ips
  induction ips using scanAggregate.induct cond with
  | case1 => exact ⟨[], by simp [scanAggregate_nil]⟩
  | case2 ip rest k ih =>
    obtain ⟨chunks, hflat, hne, hin, hch, hout⟩ := ih
    have hkle : k ≤ rest.length := runLength_le _ _ _
    refine ⟨(ip :: rest.take k) :: chunks, ?_, ?_, ?_, ?_, ?_⟩
    · simp only [List.flatten_cons, hflat, List.cons_append]
      rw [List.take_append_drop]
    · intro c hc
      rcases List.mem_cons.mp hc with rfl | hc'
      · simp
      · exact hne c hc'
    · intro c hc j hj
      rcases List.mem_cons.mp hc with rfl | hc'
      · have hlen : (ip :: rest.take k).length = k + 1 := by
          simp [List.length_take]; omega
        rw [hlen] at hj
        simp only [List.getD_cons_zero, List.getD_cons_succ]
        rw [getD_take (by omega) hkle]
        have := runLength_true (cond ip) 1 rest j (by omega)
        have harith : 1 + j = j + 1 := by omega
        rw [harith] at this
        exact this
      · exact hin c hc' j hj
    · cases chunks with
      | nil => simp
      | cons c1 cs =>
        rw [List.chain'_cons]
        refine ⟨?_, hch⟩
        have hc1 : c1 ≠ [] := hne c1 (List.mem_cons_self _ _)
        have hdropne : rest.drop k ≠ [] := by
          intro hcon
          rw [hcon] at hflat
          have happ : c1 ++ cs.flatten = [] := by simpa [List.flatten_cons] using hflat
          exact hc1 (List.append_eq_nil.mp happ).1
        have hklt : k < rest.length := by
          by_contra hcon
          exact hdropne (List.drop_eq_nil_of_le (by omega))
        have hstop := runLength_stop (cond ip) 1 rest hklt
        have hlen : (ip :: rest.take k).length = k + 1 := by
          simp [List.length_take]; omega
        rw [hlen]
        have hc1head : c1.getD 0 (IP.v4 0) = rest.getD k (IP.v4 0) := by
          rw [← flatten_head_getD hc1, hflat]
          obtain ⟨y, ys, hys⟩ := List.exists_cons_of_ne_nil hdropne
          rw [hys]
          obtain ⟨hy, _⟩ := drop_head_getD hys
          simp [hy]
        rw [hc1head]
        simp only [List.getD_cons_zero]
        have harith : 1 + k = k + 1 := by omega
        rw [harith] at hstop
        exact hstop
    · have hkdef : runLength (cond ip) 1 rest = k := rfl
      rw [scanAggregate_cons, hkdef, hout, List.map_cons]
      simp only [List.getD_cons_zero]
      rw [cons_take_getLastD ip rest k hkle]

theorem isWFv4_shape {x : IP} (h : isWFv4 x = true) : ∃ v, x = IP.v4 v ∧ v < 2 ^ 32 := by
  cases x with
  | v4 v => exact ⟨v, rfl, by simpa [isWFv4] using h⟩
  | v6 hi lo => simp [isWFv4] at h

theorem isWFv6_shape {x : IP} (h : isWFv6 x = true) :
    ∃ hi lo, x = IP.v6 hi lo ∧ hi < 2 ^ 64 ∧ lo < 2 ^ 64 ∧ (IP.v6 hi lo).to4 = none := by
  cases x with
  | v4 v => simp [isWFv6] at h
  | v6 hi lo =>
    simp only [isWFv6, Bool.and_eq_true, decide_eq_true_eq, Bool.not_eq_true'] at h
    obtain ⟨⟨h1, h2⟩, h3⟩ := h
    refine ⟨hi, lo, rfl, h1, h2, ?_⟩
    cases hc : (IP.v6 hi lo).to4 with
    | none => rfl
    | some w => rw [hc] at h3; simp at h3

theorem getLastD_eq_getD {l : List IP} (h : l ≠ []) (d : IP) :
    l.getLastD d = l.getD (l.length - 1) d := by
  have hlen : 0 < l.length := List.length_pos.mpr h
  rw [List.getLastD_eq_getLast?, List.getLast?_eq_getElem?]
  rw [List.getElem?_eq_getElem (by omega), List.getD_eq_getElem _ _ (by omega)]
  rfl

theorem chunk_sorted {chunks : List (List IP)} {ips : List IP}
    (hflat : chunks.flatten = ips) (hs : SortedDedup ips)
    {c : List IP} (hc : c ∈ chunks) : SortedDedup c := by
  apply sortedDedup_of_pairwise
  apply (sortedDedup_pairwise hs).sublist
  rw [← hflat]
  exact List.sublist_flatten_of_mem hc

theorem chunk_mem {chunks : List (List IP)} {ips : List IP}
    (hflat : chunks.flatten = ips) {c : List IP} (hc : c ∈ chunks)
    {x : IP} (hx : x ∈ c) : x ∈ ips := by
  rw [← hflat]
  exact List.mem_flatten.mpr ⟨c, hc, hx⟩

/-- Inside one strict-range/strict-block v4 run starting at value `a`, the
    j-th element is exactly `a + j` (the sorted order rules out 32-bit
    wrap-around). -/
theorem strictCond_consec_v4 {c : List IP} (h4 : ∀ x ∈ c, isWFv4 x = true)
    (hs : SortedDedup c)
    (hin : ∀ j, j + 1 < c.length →
      rangeStrictCond (c.getD 0 (IP.v4 0)) (j + 1) (c.getD (j + 1) (IP.v4 0)) = true)
    {a : Nat} (h0 : c.getD 0 (IP.v4 0) = IP.v4 a) :
    ∀ j, j < c.length → c.getD j (IP.v4 0) = IP.v4 (a + j) ∧ a + j < 2 ^ 32 := by
  intro j
  induction j with
  | zero =>
    intro hj
    obtain ⟨v, hv, hvb⟩ := isWFv4_shape (h4 _ (getD_mem_of_lt hj))
    rw [h0] at hv ⊢
    cases hv
    exact ⟨rfl, hvb⟩
  | succ j ih =>
    intro hj
    obtain ⟨hprev, hbprev⟩ := ih (by omega)
    obtain ⟨w, hw, hwb⟩ := isWFv4_shape (h4 _ (getD_mem_of_lt hj))
    have hcond := hin j hj
    rw [h0, hw] at hcond
    simp only [rangeStrictCond, IP.to4, beq_iff_eq] at hcond
    have hlt : ipVal (c.getD j (IP.v4 0)) < ipVal (c.getD (j + 1) (IP.v4 0)) :=
      sorted_lt hs (by omega) hj
    rw [hprev, hw] at hlt
    simp only [ipVal] at hlt
    rcases Nat.lt_or_ge (a + (j + 1)) (2 ^ 32) with hM | hM
    · rw [Nat.mod_eq_of_lt hM] at hcond
      rw [hw, hcond]
      exact ⟨rfl, hM⟩
    · have hMeq : a + (j + 1) = 2 ^ 32 := by omega
      rw [hMeq, Nat.mod_self] at hcond
      omega

/-- Inside one strict v6 run starting at `(hi0, lo0)`, the j-th element is
    exactly `(hi0, lo0 + j)` (sorted order rules out 64-bit wrap-around). -/
theorem strictCond_consec_v6 {c : List IP} (h6 : ∀ x ∈ c, isWFv6 x = true)
    (hs : SortedDedup c)
    (hin : ∀ j, j + 1 < c.length →
      rangeStrictCond (c.getD 0 (IP.v4 0)) (j + 1) (c.getD (j + 1) (IP.v4 0)) = true)
    {hi0 lo0 : Nat} (h0 : c.getD 0 (IP.v4 0) = IP.v6 hi0 lo0) :
    ∀ j, j < c.length → c.getD j (IP.v4 0) = IP.v6 hi0 (lo0 + j) ∧ lo0 + j < 2 ^ 64 := by
  intro j
  induction j with
  | zero =>
    intro hj
    obtain ⟨hi, lo, hv, _, hlob, _⟩ := isWFv6_shape (h6 _ (getD_mem_of_lt hj))
    rw [h0] at hv ⊢
    cases hv
    exact ⟨rfl, hlob⟩
  | succ j ih =>
    intro hj
    obtain ⟨hprev, hbprev⟩ := ih (by omega)
    obtain ⟨xhi, xlo, hw, _, hxlob, hxnone⟩ := isWFv6_shape (h6 _ (getD_mem_of_lt hj))
    have h0none : (IP.v6 hi0 lo0).to4 = none := by
      have h00 : (0 : Nat) < c.length := by omega
      obtain ⟨hi, lo, hv, _, _, hnone⟩ := isWFv6_shape (h6 _ (getD_mem_of_lt h00))
      rw [h0] at hv
      cases hv
      exact hnone
    have hcond := hin j hj
    rw [h0, hw] at hcond
    simp only [rangeStrictCond, h0none, hxnone, IP.hi64, IP.lo64, Option.isSome_none,
      Bool.not_false, Bool.true_and, Bool.and_eq_true, beq_iff_eq] at hcond
    obtain ⟨hxhi, hxlo⟩ := hcond
    have hlt : ipVal (c.getD j (IP.v4 0)) < ipVal (c.getD (j + 1) (IP.v4 0)) :=
      sorted_lt hs (by omega) hj
    rw [hprev, hw] at hlt
    simp only [ipVal] at hlt
    subst hxhi
    rcases Nat.lt_or_ge (lo0 + (j + 1)) (2 ^ 64) with hM | hM
    · rw [Nat.mod_eq_of_lt hM] at hxlo
      rw [hw, hxlo]
      exact ⟨rfl, hM⟩
    · have hMeq : lo0 + (j + 1) = 2 ^ 64 := by omega
      rw [hMeq, Nat.mod_self] at hxlo
      omega

/-- C4: on a sorted, deduplicated IPv4 list the strict range aggregator
    partitions the input into maximal consecutive runs: inside each run
    every element's unsigned 32-bit value is the numeric successor of the
    previous one, no run's first element is the successor of the previous
    run's last element, and each Range is the (first, last) pair of its
    run; on {10.0.0.1, 10.0.0.2, 10.0.0.3, 10.0.0.5} it renders
    ["10.0.0.1 - 10.0.0.3", "10.0.0.5"]. -/
theorem claim_C4_strict_ranges (ips : List IP) (hs : SortedDedup ips) (h4 : AllV4 ips) :
    (∃ chunks : List (List IP),
      chunks.flatten = ips ∧ (∀ c ∈ chunks, c ≠ []) ∧
      (∀ c ∈ chunks, ∀ j, j + 1 < c.length →
        ipVal (c.getD (j + 1) (IP.v4 0)) = ipVal (c.getD j (IP.v4 0)) + 1) ∧
      List.Chain' (fun c d =>
        ipVal (d.getD 0 (IP.v4 0)) ≠ ipVal (c.getLastD (IP.v4 0)) + 1) chunks ∧
      ipsToIPRangesStrict ips =
        chunks.map (fun c => ⟨c.getD 0 (IP.v4 0), c.getLastD (IP.v4 0)⟩)) ∧
    (ipsToIPRangesStrict [IP.v4 0x0A000001, IP.v4 0x0A000002, IP.v4 0x0A000003,
        IP.v4 0x0A000005]).map rangeLine = ["10.0.0.1 - 10.0.0.3", "10.0.0.5"] := by
  constructor
  · obtain ⟨chunks, hflat, hne, hin, hch, hout⟩ := scanAggregate_partition rangeStrictCond ips
    have hshape : ∀ c ∈ chunks, ∃ a, c.getD 0 (IP.v4 0) = IP.v4 a ∧ a < 2 ^ 32 := by
      intro c hc
      have hclen : 0 < c.length := List.length_pos.mpr (hne c hc)
      exact isWFv4_shape (h4 _ (chunk_mem hflat hc (getD_mem_of_lt hclen)))
    have hconsec : ∀ c ∈ chunks, ∀ j, j < c.length →
        ∃ a, c.getD 0 (IP.v4 0) = IP.v4 a ∧ c.getD j (IP.v4 0) = IP.v4 (a + j) ∧
          a + j < 2 ^ 32 := by
      intro c hc j hj
      obtain ⟨a, h0, _⟩ := hshape c hc
      obtain ⟨hj1, hj2⟩ := strictCond_consec_v4
        (fun x hx => h4 x (chunk_mem hflat hc hx)) (chunk_sorted hflat hs hc)
        (hin c hc) h0 j hj
      exact ⟨a, h0, hj1, hj2⟩
    refine ⟨chunks, hflat, hne, ?_, ?_, ?_⟩
    · intro c hc j hj
      obtain ⟨a, h0, hj1, hb1⟩ := hconsec c hc (j + 1) hj
      obtain ⟨a2, h02, hj2, _⟩ := hconsec c hc j (by omega)
      rw [h0] at h02
      cases h02
      rw [hj1, hj2]
      simp only [ipVal]
      omega
    · refine chain'_of_chain'_mem ?_ hch
      intro c hc d hd hcond
      have hclen : 0 < c.length := List.length_pos.mpr (hne c hc)
      obtain ⟨a, h0, hlast, hblast⟩ := hconsec c hc (c.length - 1) (by omega)
      obtain ⟨b, hd0, hdb⟩ := hshape d hd
      rw [getLastD_eq_getD (hne c hc) (IP.v4 0), hlast, hd0]
      simp only [ipVal]
      intro hcontra
      rw [h0, hd0] at hcond
      simp only [rangeStrictCond, IP.to4, beq_eq_false_iff_ne, ne_eq] at hcond
      rcases Nat.lt_or_ge (a + c.length) (2 ^ 32) with hM | hM
      · rw [Nat.mod_eq_of_lt hM] at hcond
        exact hcond (by omega)
      · omega
    · rw [ipsToIPRangesStrict, hout, List.map_map]
      rfl
  · rw [ipsToIPRangesStrict, scanAggregate_eq_fuel _ _ 4 (by decide)]
    rfl

/-- C5: on a sorted, deduplicated IPv4 list the loose range aggregator
    partitions the input into runs that extend exactly while
    (next − runStart) < steps × 255 in unsigned 32-bit arithmetic, where
    steps is the number of positions advanced from the run start; on
    {10.0.0.1, 10.0.0.2, 10.0.0.3, 10.0.0.5} it renders
    ["10.0.0.1 - 10.0.0.5"]. -/
theorem claim_C5_loose_ranges (ips : List IP) (hs : SortedDedup ips) (h4 : AllV4 ips) :
    (∃ chunks : List (List IP),
      chunks.flatten = ips ∧ (∀ c ∈ chunks, c ≠ []) ∧
      (∀ c ∈ chunks, ∀ j, j + 1 < c.length →
        (ipVal (c.getD (j + 1) (IP.v4 0)) + 2 ^ 32 - ipVal (c.getD 0 (IP.v4 0))) % 2 ^ 32
          < (j + 1) * 255 % 2 ^ 32) ∧
      List.Chain' (fun c d =>
        ¬ ((ipVal (d.getD 0 (IP.v4 0)) + 2 ^ 32 - ipVal (c.getD 0 (IP.v4 0))) % 2 ^ 32
          < c.length * 255 % 2 ^ 32)) chunks ∧
      ipsToIPRangesLoose ips =
        chunks.map (fun c => ⟨c.getD 0 (IP.v4 0), c.getLastD (IP.v4 0)⟩)) ∧
    (ipsToIPRangesLoose [IP.v4 0x0A000001, IP.v4 0x0A000002, IP.v4 0x0A000003,
        IP.v4 0x0A000005]).map rangeLine = ["10.0.0.1 - 10.0.0.5"] := by
  constructor
  · obtain ⟨chunks, hflat, hne, hin, hch, hout⟩ := scanAggregate_partition rangeLooseCond ips
    have hshape : ∀ c ∈ chunks, ∀ j, j < c.length →
        ∃ v, c.getD j (IP.v4 0) = IP.v4 v ∧ v < 2 ^ 32 := by
      intro c hc j hj
      exact isWFv4_shape (h4 _ (chunk_mem hflat hc (getD_mem_of_lt hj)))
    refine ⟨chunks, hflat, hne, ?_, ?_, ?_⟩
    · intro c hc j hj
      obtain ⟨a, h0, hab⟩ := hshape c hc 0 (by omega)
      obtain ⟨w, h1, _⟩ := hshape c hc (j + 1) hj
      have hcond := hin c hc j hj
      rw [h0, h1] at hcond
      simp only [rangeLooseCond, IP.to4, decide_eq_true_eq] at hcond
      rw [Nat.mod_eq_of_lt hab] at hcond
      rw [h0, h1]
      simpa [ipVal] using hcond
    · refine chain'_of_chain'_mem ?_ hch
      intro c hc d hd hcond
      have hclen : 0 < c.length := List.length_pos.mpr (hne c hc)
      obtain ⟨a, h0, hab⟩ := hshape c hc 0 (by omega)
      have hdlen : 0 < d.length := List.length_pos.mpr (hne d hd)
      obtain ⟨b, hd0, _⟩ := hshape d hd 0 (by omega)
      rw [h0, hd0] at hcond ⊢
      simp only [rangeLooseCond, IP.to4, decide_eq_false_iff_not] at hcond
      rw [Nat.mod_eq_of_lt hab] at hcond
      simpa [ipVal] using hcond
    · rw [ipsToIPRangesLoose, hout, List.map_map]
      rfl
  · rw [ipsToIPRangesLoose, scanAggregate_eq_fuel _ _ 4 (by decide)]
    rfl

theorem claim_C4_witness :
    (∃ chunks : List (List IP),
      chunks.flatten = [IP.v4 1, IP.v4 3] ∧ (∀ c ∈ chunks, c ≠ []) ∧
      (∀ c ∈ chunks, ∀ j, j + 1 < c.length →
        ipVal (c.getD (j + 1) (IP.v4 0)) = ipVal (c.getD j (IP.v4 0)) + 1) ∧
      List.Chain' (fun c d =>
        ipVal (d.getD 0 (IP.v4 0)) ≠ ipVal (c.getLastD (IP.v4 0)) + 1) chunks ∧
      ipsToIPRangesStrict [IP.v4 1, IP.v4 3] =
        chunks.map (fun c => ⟨c.getD 0 (IP.v4 0), c.getLastD (IP.v4 0)⟩)) ∧
    (ipsToIPRangesStrict [IP.v4 0x0A000001, IP.v4 0x0A000002, IP.v4 0x0A000003,
        IP.v4 0x0A000005]).map rangeLine = ["10.0.0.1 - 10.0.0.3", "10.0.0.5"] :=
  claim_C4_strict_ranges [IP.v4 1, IP.v4 3]
    (by simp [SortedDedup, List.chain'_cons, List.chain'_singleton, ipVal])
    (by intro ip hip; fin_cases hip <;> decide)

theorem claim_C5_witness :
    (∃ chunks : List (List IP),
      chunks.flatten = [IP.v4 1, IP.v4 3] ∧ (∀ c ∈ chunks, c ≠ []) ∧
      (∀ c ∈ chunks, ∀ j, j + 1 < c.length →
        (ipVal (c.getD (j + 1) (IP.v4 0)) + 2 ^ 32 - ipVal (c.getD 0 (IP.v4 0))) % 2 ^ 32
          < (j + 1) * 255 % 2 ^ 32) ∧
      List.Chain' (fun c d =>
        ¬ ((ipVal (d.getD 0 (IP.v4 0)) + 2 ^ 32 - ipVal (c.getD 0 (IP.v4 0))) % 2 ^ 32
          < c.length * 255 % 2 ^ 32)) chunks ∧
      ipsToIPRangesLoose [IP.v4 1, IP.v4 3] =
        chunks.map (fun c => ⟨c.getD 0 (IP.v4 0), c.getLastD (IP.v4 0)⟩)) ∧
    (ipsToIPRangesLoose [IP.v4 0x0A000001, IP.v4 0x0A000002, IP.v4 0x0A000003,
        IP.v4 0x0A000005]).map rangeLine = ["10.0.0.1 - 10.0.0.5"] :=
  claim_C5_loose_ranges [IP.v4 1, IP.v4 3]
    (by simp [SortedDedup, List.chain'_cons, List.chain'_singleton, ipVal])
    (by intro ip hip; fin_cases hip <;> decide)

theorem blockStrictCond_v4_iff {a w : Nat} (n : Nat) :
    blockStrictCond (IP.v4 a) n (IP.v4 w) = true ↔
      (w = (a + n) % 2 ^ 32 ∨
        (oct 2 w = (oct 2 a + n) % 256 ∧ oct 3 a = oct 3 w)) := by
  simp [blockStrictCond, IP.to4]

/-- C6 as stated is false on the code: on the sorted, deduplicated IPv4
    input [10.0.0.255, 10.0.1.0] the strict block aggregator merges both
    addresses into one block (rendered "10.0.0.[255-0]") although neither
    claimed extension condition holds for the pair: the last octet 0 is
    not the numeric successor of 255 with higher octets equal, and the
    third octet rule requires the last octet unchanged.  The code compares
    the full 32-bit value against runStart + n, which carries across the
    octet boundary. -/
theorem claim_C6_counterexample :
    ipsToIPBlocksStrict [IP.v4 0x0A0000FF, IP.v4 0x0A000100] =
        [⟨IP.v4 0x0A0000FF, IP.v4 0x0A000100⟩] ∧
      SortedDedup [IP.v4 0x0A0000FF, IP.v4 0x0A000100] ∧
      AllV4 [IP.v4 0x0A0000FF, IP.v4 0x0A000100] ∧
      ¬ (oct 3 0x0A000100 = oct 3 0x0A0000FF + 1 ∧ oct 0 0x0A000100 = oct 0 0x0A0000FF ∧
          oct 1 0x0A000100 = oct 1 0x0A0000FF ∧ oct 2 0x0A000100 = oct 2 0x0A0000FF) ∧
      ¬ (oct 2 0x0A000100 = oct 2 0x0A0000FF + 1 ∧ oct 3 0x0A000100 = oct 3 0x0A0000FF) := by
  refine ⟨?_, ?_, by intro ip hip; fin_cases hip <;> decide, by decide, by decide⟩
  · rw [ipsToIPBlocksStrict, scanAggregate_eq_fuel _ _ 2 (by decide)]
    rfl
  · simp [SortedDedup, List.chain'_cons, List.chain'_singleton, ipVal]

/-- C6 amended: on a sorted, deduplicated IPv4 list the strict block
    aggregator partitions the input into runs that extend exactly while,
    with n positions advanced from the run start, either (a) the next
    address's 32-bit value equals the run start's value plus n (mod 2^32)
    — the successor of the previous value, carrying across octets — or
    (b) the next address's third octet equals the run start's third octet
    plus n (mod 256) with the last octet equal to the run start's; on
    {10.0.0.1, 10.0.0.2, 10.0.0.3, 10.0.0.10, 10.0.1.20, 10.0.2.20} it
    renders ["10.0.0.[1-3]", "10.0.0.10", "10.0.[1-2].20"]. -/
theorem claim_C6_strict_blocks (ips : List IP) (hs : SortedDedup ips) (h4 : AllV4 ips) :
    (∃ chunks : List (List IP),
      chunks.flatten = ips ∧ (∀ c ∈ chunks, c ≠ []) ∧
      (∀ c ∈ chunks, ∀ j, j + 1 < c.length →
        (ipVal (c.getD (j + 1) (IP.v4 0)) = (ipVal (c.getD 0 (IP.v4 0)) + (j + 1)) % 2 ^ 32 ∨
          (oct 2 (ipVal (c.getD (j + 1) (IP.v4 0))) =
              (oct 2 (ipVal (c.getD 0 (IP.v4 0))) + (j + 1)) % 256 ∧
            oct 3 (ipVal (c.getD 0 (IP.v4 0))) = oct 3 (ipVal (c.getD (j + 1) (IP.v4 0)))))) ∧
      List.Chain' (fun c d =>
        ¬ (ipVal (d.getD 0 (IP.v4 0)) = (ipVal (c.getD 0 (IP.v4 0)) + c.length) % 2 ^ 32 ∨
          (oct 2 (ipVal (d.getD 0 (IP.v4 0))) =
              (oct 2 (ipVal (c.getD 0 (IP.v4 0))) + c.length) % 256 ∧
            oct 3 (ipVal (c.getD 0 (IP.v4 0))) = oct 3 (ipVal (d.getD 0 (IP.v4 0)))))) chunks ∧
      ipsToIPBlocksStrict ips =
        chunks.map (fun c => ⟨c.getD 0 (IP.v4 0), c.getLastD (IP.v4 0)⟩)) ∧
    (ipsToIPBlocksStrict [IP.v4 0x0A000001, IP.v4 0x0A000002, IP.v4 0x0A000003,
        IP.v4 0x0A00000A, IP.v4 0x0A000114, IP.v4 0x0A000214]).map blockLine =
      ["10.0.0.[1-3]", "10.0.0.10", "10.0.[1-2].20"] := by
  constructor
  · obtain ⟨chunks, hflat, hne, hin, hch, hout⟩ := scanAggregate_partition blockStrictCond ips
    have hshape : ∀ c ∈ chunks, ∀ j, j < c.length →
        ∃ v, c.getD j (IP.v4 0) = IP.v4 v ∧ v < 2 ^ 32 := by
      intro c hc j hj
      exact isWFv4_shape (h4 _ (chunk_mem hflat hc (getD_mem_of_lt hj)))
    refine ⟨chunks, hflat, hne, ?_, ?_, ?_⟩
    · intro c hc j hj
      obtain ⟨a, h0, _⟩ := hshape c hc 0 (by omega)
      obtain ⟨w, h1, _⟩ := hshape c hc (j + 1) hj
      have hcond := hin c hc j hj
      rw [h0, h1] at hcond
      rw [blockStrictCond_v4_iff] at hcond
      rw [h0, h1]
      simpa [ipVal] using hcond
    · refine chain'_of_chain'_mem ?_ hch
      intro c hc d hd hcond
      have hclen : 0 < c.length := List.length_pos.mpr (hne c hc)
      obtain ⟨a, h0, _⟩ := hshape c hc 0 (by omega)
      have hdlen : 0 < d.length := List.length_pos.mpr (hne d hd)
      obtain ⟨b, hd0, _⟩ := hshape d hd 0 (by omega)
      rw [h0, hd0] at hcond ⊢
      simp only [ipVal]
      intro hcontra
      rw [show (blockStrictCond (IP.v4 a) c.length (IP.v4 b) = false) ↔
          ¬ (blockStrictCond (IP.v4 a) c.length (IP.v4 b) = true) by simp] at hcond
      exact hcond ((blockStrictCond_v4_iff c.length).mpr hcontra)
    · rw [ipsToIPBlocksStrict, hout, List.map_map]
      rfl
  · rw [ipsToIPBlocksStrict, scanAggregate_eq_fuel _ _ 6 (by decide)]
    rfl

theorem claim_C6_witness :
    (∃ chunks : List (List IP),
      chunks.flatten = [IP.v4 1, IP.v4 3] ∧ (∀ c ∈ chunks, c ≠ []) ∧
      (∀ c ∈ chunks, ∀ j, j + 1 < c.length →
        (ipVal (c.getD (j + 1) (IP.v4 0)) = (ipVal (c.getD 0 (IP.v4 0)) + (j + 1)) % 2 ^ 32 ∨
          (oct 2 (ipVal (c.getD (j + 1) (IP.v4 0))) =
              (oct 2 (ipVal (c.getD 0 (IP.v4 0))) + (j + 1)) % 256 ∧
            oct 3 (ipVal (c.getD 0 (IP.v4 0))) = oct 3 (ipVal (c.getD (j + 1) (IP.v4 0)))))) ∧
      List.Chain' (fun c d =>
        ¬ (ipVal (d.getD 0 (IP.v4 0)) = (ipVal (c.getD 0 (IP.v4 0)) + c.length) % 2 ^ 32 ∨
          (oct 2 (ipVal (d.getD 0 (IP.v4 0))) =
              (oct 2 (ipVal (c.getD 0 (IP.v4 0))) + c.length) % 256 ∧
            oct 3 (ipVal (c.getD 0 (IP.v4 0))) = oct 3 (ipVal (d.getD 0 (IP.v4 0)))))) chunks ∧
      ipsToIPBlocksStrict [IP.v4 1, IP.v4 3] =
        chunks.map (fun c => ⟨c.getD 0 (IP.v4 0), c.getLastD (IP.v4 0)⟩)) ∧
    (ipsToIPBlocksStrict [IP.v4 0x0A000001, IP.v4 0x0A000002, IP.v4 0x0A000003,
        IP.v4 0x0A00000A, IP.v4 0x0A000114, IP.v4 0x0A000214]).map blockLine =
      ["10.0.0.[1-3]", "10.0.0.10", "10.0.[1-2].20"] :=
  claim_C6_strict_blocks [IP.v4 1, IP.v4 3]
    (by simp [SortedDedup, List.chain'_cons, List.chain'_singleton, ipVal])
    (by intro ip hip; fin_cases hip <;> decide)

/-! ### Strict exactness (C1) -/

theorem rangesStrictV4_space (ips : List IP) (hs : SortedDedup ips) (h4 : AllV4 ips) :
    ∀ x : IP, (∃ r ∈ ipsToIPRangesStrict ips, rangeSpace r x) ↔ x ∈ ips := by
  obtain ⟨chunks, hflat, hne, hin, hch, hout⟩ := scanAggregate_partition rangeStrictCond ips
  have hfacts : ∀ c ∈ chunks, ∃ a, c.getD 0 (IP.v4 0) = IP.v4 a ∧
      (∀ j, j < c.length → c.getD j (IP.v4 0) = IP.v4 (a + j) ∧ a + j < 2 ^ 32) := by
    intro c hc
    have hclen : 0 < c.length := List.length_pos.mpr (hne c hc)
    obtain ⟨a, h0, _⟩ := isWFv4_shape (h4 _ (chunk_mem hflat hc (getD_mem_of_lt hclen)))
    exact ⟨a, h0, strictCond_consec_v4 (fun y hy => h4 y (chunk_mem hflat hc hy))
      (chunk_sorted hflat hs hc) (hin c hc) h0⟩
  intro x
  rw [ipsToIPRangesStrict, hout, List.map_map]
  constructor
  · rintro ⟨r, hr, hspace⟩
    rw [List.mem_map] at hr
    obtain ⟨c, hc, hrc⟩ := hr
    obtain ⟨a, h0, hcons⟩ := hfacts c hc
    have hclen : 0 < c.length := List.length_pos.mpr (hne c hc)
    have hlast : c.getLastD (IP.v4 0) = IP.v4 (a + (c.length - 1)) := by
      rw [getLastD_eq_getD (hne c hc) (IP.v4 0)]
      exact (hcons (c.length - 1) (by omega)).1
    rw [← hrc] at hspace
    simp only [Function.comp_apply] at hspace
    rw [h0, hlast] at hspace
    cases x with
    | v6 xhi xlo => simp [rangeSpace] at hspace
    | v4 w =>
      simp only [rangeSpace] at hspace
      obtain ⟨haw, hwe⟩ := hspace
      obtain ⟨het, _⟩ := hcons (w - a) (by omega)
      have hxel : c.getD (w - a) (IP.v4 0) = IP.v4 w := by
        rw [het]; congr 1; omega
      have : IP.v4 w ∈ c := by
        rw [← hxel]; exact getD_mem_of_lt (by omega)
      exact chunk_mem hflat hc this
  · intro hx
    rw [← hflat] at hx
    obtain ⟨c, hc, hxc⟩ := List.mem_flatten.mp hx
    obtain ⟨a, h0, hcons⟩ := hfacts c hc
    have hclen : 0 < c.length := List.length_pos.mpr (hne c hc)
    obtain ⟨t, ht, hxt⟩ := List.mem_iff_getElem.mp hxc
    have hxd : c.getD t (IP.v4 0) = x := by rw [List.getD_eq_getElem _ _ ht, hxt]
    obtain ⟨hel, _⟩ := hcons t ht
    have hlast : c.getLastD (IP.v4 0) = IP.v4 (a + (c.length - 1)) := by
      rw [getLastD_eq_getD (hne c hc) (IP.v4 0)]
      exact (hcons (c.length - 1) (by omega)).1
    refine ⟨⟨c.getD 0 (IP.v4 0), c.getLastD (IP.v4 0)⟩, ?_, ?_⟩
    · rw [List.mem_map]
      exact ⟨c, hc, rfl⟩
    · rw [h0, hlast, ← hxd, hel]
      simp only [rangeSpace]
      omega

theorem rangesStrictV6_space (ips : List IP) (hs : SortedDedup ips) (h6 : AllV6 ips) :
    ∀ x : IP, x.WF → ((∃ r ∈ ipsToIPRangesStrict ips, rangeSpace r x) ↔ x ∈ ips) := by
  obtain ⟨chunks, hflat, hne, hin, hch, hout⟩ := scanAggregate_partition rangeStrictCond ips
  have hfacts : ∀ c ∈ chunks, ∃ hi0 lo0, c.getD 0 (IP.v4 0) = IP.v6 hi0 lo0 ∧ hi0 < 2 ^ 64 ∧
      (∀ j, j < c.length → c.getD j (IP.v4 0) = IP.v6 hi0 (lo0 + j) ∧ lo0 + j < 2 ^ 64) := by
    intro c hc
    have hclen : 0 < c.length := List.length_pos.mpr (hne c hc)
    obtain ⟨hi0, lo0, h0, hhib, _, _⟩ :=
      isWFv6_shape (h6 _ (chunk_mem hflat hc (getD_mem_of_lt hclen)))
    exact ⟨hi0, lo0, h0, hhib, strictCond_consec_v6
      (fun y hy => h6 y (chunk_mem hflat hc hy)) (chunk_sorted hflat hs hc) (hin c hc) h0⟩
  intro x hxwf
  rw [ipsToIPRangesStrict, hout, List.map_map]
  constructor
  · rintro ⟨r, hr, hspace⟩
    rw [List.mem_map] at hr
    obtain ⟨c, hc, hrc⟩ := hr
    obtain ⟨hi0, lo0, h0, hhib, hcons⟩ := hfacts c hc
    have hclen : 0 < c.length := List.length_pos.mpr (hne c hc)
    have hlast : c.getLastD (IP.v4 0) = IP.v6 hi0 (lo0 + (c.length - 1)) := by
      rw [getLastD_eq_getD (hne c hc) (IP.v4 0)]
      exact (hcons (c.length - 1) (by omega)).1
    rw [← hrc] at hspace
    simp only [Function.comp_apply] at hspace
    rw [h0, hlast] at hspace
    cases x with
    | v4 w => simp [rangeSpace] at hspace
    | v6 xhi xlo =>
      simp only [rangeSpace] at hspace
      obtain ⟨hxlob⟩ := And.intro hxwf.2 trivial
      obtain ⟨hlow, hhigh⟩ := hspace
      have hlolast : lo0 + (c.length - 1) < 2 ^ 64 := (hcons (c.length - 1) (by omega)).2
      -- the 128-bit value of x lies in [hi0*2^64+lo0, hi0*2^64+lo0+(len-1)];
      -- with canonical components x must be (hi0, lo0 + t)
      have hxhi : xhi = hi0 := by
        rcases Nat.lt_trichotomy xhi hi0 with h | h | h
        · exfalso; have := hxwf.2; nlinarith [hlow, h]
        · exact h
        · exfalso; have := hxwf.2; nlinarith [hhigh, h]
      subst hxhi
      have hxlo : lo0 ≤ xlo ∧ xlo ≤ lo0 + (c.length - 1) := by
        constructor <;> omega
      obtain ⟨het, _⟩ := hcons (xlo - lo0) (by omega)
      have hxel : c.getD (xlo - lo0) (IP.v4 0) = IP.v6 xhi xlo := by
        rw [het]; congr 1; omega
      have : IP.v6 xhi xlo ∈ c := by
        rw [← hxel]; exact getD_mem_of_lt (by omega)
      exact chunk_mem hflat hc this
  · intro hx
    rw [← hflat] at hx
    obtain ⟨c, hc, hxc⟩ := List.mem_flatten.mp hx
    obtain ⟨hi0, lo0, h0, hhib, hcons⟩ := hfacts c hc
    have hclen : 0 < c.length := List.length_pos.mpr (hne c hc)
    obtain ⟨t, ht, hxt⟩ := List.mem_iff_getElem.mp hxc
    have hxd : c.getD t (IP.v4 0) = x := by rw [List.getD_eq_getElem _ _ ht, hxt]
    obtain ⟨hel, _⟩ := hcons t ht
    have hlast : c.getLastD (IP.v4 0) = IP.v6 hi0 (lo0 + (c.length - 1)) := by
      rw [getLastD_eq_getD (hne c hc) (IP.v4 0)]
      exact (hcons (c.length - 1) (by omega)).1
    refine ⟨⟨c.getD 0 (IP.v4 0), c.getLastD (IP.v4 0)⟩, ?_, ?_⟩
    · rw [List.mem_map]
      exact ⟨c, hc, rfl⟩
    · rw [h0, hlast, ← hxd, hel]
      simp only [rangeSpace]
      omega

theorem div_eq_iff_interval {w v m : Nat} (hm : 0 < m) :
    w / m = v / m ↔ v / m * m ≤ w ∧ w < v / m * m + m := by
  constructor
  · intro h
    constructor
    · rw [← h]
      exact Nat.div_mul_le_self w m
    · calc w = m * (w / m) + w % m := (Nat.div_add_mod w m).symm
        _ < m * (w / m) + m := Nat.add_lt_add_left (Nat.mod_lt w hm) _
        _ = w / m * m + m := by rw [Nat.mul_comm]
        _ = v / m * m + m := by rw [h]
  · rintro ⟨h1, h2⟩
    rw [Nat.mul_comm] at h1 h2
    have ht : w = m * (v / m) + (w - m * (v / m)) := (Nat.add_sub_cancel' h1).symm
    have hlt : w - m * (v / m) < m := by
      rw [Nat.sub_lt_iff_lt_add h1]
      omega
    calc w / m = (m * (v / m) + (w - m * (v / m))) / m := by rw [← ht]
      _ = v / m + (w - m * (v / m)) / m := Nat.mul_add_div hm _ _
      _ = v / m + 0 := by rw [Nat.div_eq_of_lt hlt]
      _ = v / m := Nat.add_zero _

theorem subnetContains_v4_iff {v L w : Nat} :
    subnetContains (mkV4Subnet v L) (IP.v4 w) = true ↔
      w / 2 ^ (32 - L) = v / 2 ^ (32 - L) := by
  have hmd : v / 2 ^ (32 - L) * 2 ^ (32 - L) / 2 ^ (32 - L) = v / 2 ^ (32 - L) :=
    Nat.mul_div_cancel _ (Nat.two_pow_pos _)
  simp [subnetContains, mkV4Subnet, IP.to4, hmd]

theorem subnetSpace_v4_iff {v L w : Nat} :
    subnetSpace (mkV4Subnet v L) (IP.v4 w) ↔
      w / 2 ^ (32 - L) = v / 2 ^ (32 - L) := by
  have hmd : v / 2 ^ (32 - L) * 2 ^ (32 - L) / 2 ^ (32 - L) = v / 2 ^ (32 - L) :=
    Nat.mul_div_cancel _ (Nat.two_pow_pos _)
  simp [subnetSpace, mkV4Subnet, hmd]

theorem subnetSpace_v4_v6 {v L : Nat} {xhi xlo : Nat} :
    ¬ subnetSpace (mkV4Subnet v L) (IP.v6 xhi xlo) := by
  simp [subnetSpace, mkV4Subnet]

theorem subnetStrictAccept_spec {v : Nat} {rest : List IP} {L : Nat}
    (h : subnetStrictAccept v rest L = true) :
    ∀ j, j < 2 ^ (32 - L) - 1 →
      j < rest.length ∧ subnetContains (mkV4Subnet v L) (rest.getD j (IP.v4 0)) = true := by
  intro j hj
  rw [subnetStrictAccept, List.all_eq_true] at h
  have := h j (List.mem_range.mpr hj)
  simpa using this

theorem subnetStrictScan_spec (v : Nat) (rest : List IP) :
    ∀ L, L ≤ 32 →
      L ≤ subnetStrictScan v rest L ∧ subnetStrictScan v rest L ≤ 32 ∧
        subnetStrictAccept v rest (subnetStrictScan v rest L) = true := by
  intro L
  induction L using subnetStrictScan.induct v rest with
  | case1 L h32 =>
    intro hL
    have hL32 : L = 32 := by omega
    subst hL32
    have hsv : subnetStrictScan v rest 32 = 32 := by
      rw [subnetStrictScan]; simp
    rw [hsv]
    refine ⟨Nat.le_refl _, Nat.le_refl _, ?_⟩
    rw [subnetStrictAccept]
    rfl
  | case2 L h32 hacc =>
    intro hL
    have hsv : subnetStrictScan v rest L = L := by
      rw [subnetStrictScan]; simp [h32, hacc]
    rw [hsv]
    exact ⟨Nat.le_refl _, by omega, hacc⟩
  | case3 L h32 hacc ih =>
    intro hL
    have hsv : subnetStrictScan v rest L = subnetStrictScan v rest (L + 1) := by
      rw [subnetStrictScan]; simp [h32, hacc]
    rw [hsv]
    obtain ⟨h1, h2, h3⟩ := ih (by omega)
    exact ⟨by omega, h2, h3⟩

theorem ipsToSubnetsStrict_cons_v4 (v : Nat) (rest : List IP) :
    ipsToSubnetsStrict (IP.v4 v :: rest) =
      mkV4Subnet v (subnetStrictScan v rest 24) ::
        ipsToSubnetsStrict (rest.drop (2 ^ (32 - subnetStrictScan v rest 24) - 1)) := by
  rw [ipsToSubnetsStrict]
  rfl

theorem ipsToSubnetsStrict_cons_v6 {ip : IP} (hnone : ip.to4 = none) (rest : List IP) :
    ipsToSubnetsStrict (ip :: rest) = ⟨ip, 128, 128⟩ :: ipsToSubnetsStrict rest := by
  rw [ipsToSubnetsStrict]
  simp [hnone]

theorem subnetsStrictV4_space (ips : List IP) :
    SortedDedup ips → AllV4 ips →
      ∀ x : IP, ((∃ s ∈ ipsToSubnetsStrict ips, subnetSpace s x) ↔ x ∈ ips) := by
  induction ips using ipsToSubnetsStrict.induct with
  | case1 =>
    intro _ _ x
    rw [ipsToSubnetsStrict]
    simp
  | case2 ip rest v hv L ih =>
    intro hs h4 x
    have hip : ip = IP.v4 v := by
      obtain ⟨a, hae, _⟩ := isWFv4_shape (h4 ip (List.mem_cons_self _ _))
      subst hae
      have hva : a = v := by simpa [IP.to4] using hv
      rw [hva]
    subst hip
    have hvb : v < 2 ^ 32 := by
      obtain ⟨a, hae, hab⟩ := isWFv4_shape (h4 _ (List.mem_cons_self _ _))
      cases hae
      exact hab
    have hLdef : subnetStrictScan v rest 24 = L := rfl
    obtain ⟨hL1, hL2, hacc⟩ := subnetStrictScan_spec v rest 24 (by omega)
    rw [hLdef] at hL1 hL2 hacc
    have haj := subnetStrictAccept_spec hacc
    have hHpos : 0 < 2 ^ (32 - L) := Nat.two_pow_pos _
    have hmle : 2 ^ (32 - L) - 1 ≤ rest.length := by
      rcases Nat.eq_zero_or_pos (2 ^ (32 - L) - 1) with h0 | hp
      · omega
      · have := (haj (2 ^ (32 - L) - 1 - 1) (by omega)).1
        omega
    -- shape of the candidate positions
    have hwj : ∀ j, j < 2 ^ (32 - L) - 1 → ∃ w, rest.getD j (IP.v4 0) = IP.v4 w ∧
        w < 2 ^ 32 ∧ w / 2 ^ (32 - L) = v / 2 ^ (32 - L) := by
      intro j hj
      obtain ⟨hjlen, hcont⟩ := haj j hj
      obtain ⟨w, hwe, hwb⟩ := isWFv4_shape (h4 _ (List.mem_cons_of_mem _ (getD_mem_of_lt hjlen)))
      rw [hwe] at hcont
      exact ⟨w, hwe, hwb, subnetContains_v4_iff.mp hcont⟩
    -- cardinality: the consumed positions carry exactly the subnet's values
    have hvals : ∀ i, i ≤ 2 ^ (32 - L) - 1 →
        ipVal ((IP.v4 v :: rest).getD i (IP.v4 0)) =
          v / 2 ^ (32 - L) * 2 ^ (32 - L) + i := by
      have hbint : ∀ i, i ≤ 2 ^ (32 - L) - 1 →
          v / 2 ^ (32 - L) * 2 ^ (32 - L) ≤ ipVal ((IP.v4 v :: rest).getD i (IP.v4 0)) ∧
            ipVal ((IP.v4 v :: rest).getD i (IP.v4 0)) <
              v / 2 ^ (32 - L) * 2 ^ (32 - L) + 2 ^ (32 - L) := by
        intro i hi
        cases i with
        | zero =>
          simpa [ipVal] using (div_eq_iff_interval hHpos).mp (rfl :
            v / 2 ^ (32 - L) = v / 2 ^ (32 - L))
        | succ j =>
          obtain ⟨w, hwe, _, hwdiv⟩ := hwj j (by omega)
          simp only [List.getD_cons_succ, hwe, ipVal]
          exact (div_eq_iff_interval hHpos).mp hwdiv
      have hlow : ∀ i, i ≤ 2 ^ (32 - L) - 1 →
          v + i ≤ ipVal ((IP.v4 v :: rest).getD i (IP.v4 0)) := by
        intro i hi
        have := sorted_add_le hs (Nat.zero_le i) (by simp; omega)
        simpa [ipVal] using this
      have hlast := hbint (2 ^ (32 - L) - 1) (Nat.le_refl _)
      have hveqb : v = v / 2 ^ (32 - L) * 2 ^ (32 - L) := by
        have h1 := hlow (2 ^ (32 - L) - 1) (Nat.le_refl _)
        have h2 := (div_eq_iff_interval hHpos).mp (rfl :
          v / 2 ^ (32 - L) = v / 2 ^ (32 - L))
        omega
      intro i hi
      have hup := sorted_add_le hs hi (by simp; omega)
      have h1 := hlow i hi
      have h2 := hbint i hi
      omega
    have helem : ∀ j, j < 2 ^ (32 - L) - 1 →
        rest.getD j (IP.v4 0) = IP.v4 (v / 2 ^ (32 - L) * 2 ^ (32 - L) + (j + 1)) := by
      intro j hj
      obtain ⟨w, hwe, _, _⟩ := hwj j hj
      have := hvals (j + 1) (by omega)
      rw [List.getD_cons_succ, hwe] at this
      simp only [ipVal] at this
      rw [hwe, this]
    have hveqb : v = v / 2 ^ (32 - L) * 2 ^ (32 - L) := by
      have := hvals 0 (by omega)
      simpa [ipVal] using this
    rw [ipsToSubnetsStrict_cons_v4, hLdef]
    have hsplit : IP.v4 v :: rest =
        IP.v4 v :: (rest.take (2 ^ (32 - L) - 1) ++ rest.drop (2 ^ (32 - L) - 1)) := by
      rw [List.take_append_drop]
    have ihx := ih (sortedDedup_drop (sortedDedup_tail hs) _) (fun y hy => h4 y
      (List.mem_cons_of_mem _ (List.mem_of_mem_drop hy))) x
    constructor
    · rintro ⟨s, hsmem, hspace⟩
      rcases List.mem_cons.mp hsmem with rfl | hsmem'
      · -- covered by the first subnet
        cases x with
        | v6 xhi xlo => exact absurd hspace subnetSpace_v4_v6
        | v4 w =>
          have hwdiv := (subnetSpace_v4_iff).mp hspace
          have hwint := (div_eq_iff_interval hHpos).mp hwdiv
          rcases Nat.eq_zero_or_pos (w - v / 2 ^ (32 - L) * 2 ^ (32 - L)) with ht0 | htp
          · have : w = v := by omega
            rw [this]
            exact List.mem_cons_self _ _
          · have hje : rest.getD (w - v / 2 ^ (32 - L) * 2 ^ (32 - L) - 1) (IP.v4 0) =
                IP.v4 w := by
              rw [helem _ (by omega)]
              congr 1
              omega
            right
            rw [← hje]
            exact getD_mem_of_lt (by omega)
      · rcases ihx.mp ⟨s, hsmem', hspace⟩ with hxd
        exact List.mem_cons_of_mem _ (List.mem_of_mem_drop hxd)
    · intro hx
      rcases List.mem_cons.mp hx with rfl | hx'
      · refine ⟨mkV4Subnet v L, List.mem_cons_self _ _, ?_⟩
        exact (subnetSpace_v4_iff).mpr rfl
      · rw [← List.take_append_drop (2 ^ (32 - L) - 1) rest] at hx'
        rcases List.mem_append.mp hx' with hxt | hxd
        · obtain ⟨t, ht, hxt2⟩ := List.mem_iff_getElem.mp hxt
          have htlen : t < 2 ^ (32 - L) - 1 := by
            have := List.length_take (2 ^ (32 - L) - 1) rest
            omega
          have hxe : x = IP.v4 (v / 2 ^ (32 - L) * 2 ^ (32 - L) + (t + 1)) := by
            rw [← hxt2]
            have : (rest.take (2 ^ (32 - L) - 1))[t] =
                (rest.take (2 ^ (32 - L) - 1)).getD t (IP.v4 0) :=
              (List.getD_eq_getElem _ _ ht).symm
            rw [this, getD_take htlen hmle, helem t htlen]
          refine ⟨mkV4Subnet v L, List.mem_cons_self _ _, ?_⟩
          rw [hxe]
          refine (subnetSpace_v4_iff).mpr ?_
          refine (div_eq_iff_interval hHpos).mpr ⟨by omega, by omega⟩
        · obtain ⟨s, hsm, hsp⟩ := ihx.mpr hxd
          exact ⟨s, List.mem_cons_of_mem _ hsm, hsp⟩
  | case3 ip rest hv ih =>
    intro hs h4 x
    exact absurd (isWFv4_shape (h4 ip (List.mem_cons_self _ _))) (by
      rintro ⟨a, rfl, -⟩
      simp [IP.to4] at hv)

theorem subnetsStrictV6_space (ips : List IP) :
    SortedDedup ips → AllV6 ips →
      ∀ x : IP, x.WF → ((∃ s ∈ ipsToSubnetsStrict ips, subnetSpace s x) ↔ x ∈ ips) := by
  induction ips with
  | nil =>
    intro _ _ x _
    rw [ipsToSubnetsStrict]
    simp
  | cons ip rest ih =>
    intro hs h6 x hxwf
    obtain ⟨hi, lo, hip, hhib, hlob, hnone⟩ := isWFv6_shape (h6 ip (List.mem_cons_self _ _))
    subst hip
    rw [ipsToSubnetsStrict_cons_v6 hnone]
    have ihx := ih (sortedDedup_tail hs) (fun y hy => h6 y (List.mem_cons_of_mem _ hy)) x hxwf
    constructor
    · rintro ⟨s, hsm, hspace⟩
      rcases List.mem_cons.mp hsm with rfl | hsm'
      · cases x with
        | v4 w => simp [subnetSpace] at hspace
        | v6 xhi xlo =>
          simp only [subnetSpace] at hspace
          have hxwf2 : xhi < 2 ^ 64 ∧ xlo < 2 ^ 64 := hxwf
          simp at hspace
          have hxeq : xhi = hi ∧ xlo = lo := by omega
          rw [hxeq.1, hxeq.2]
          exact List.mem_cons_self _ _
      · exact List.mem_cons_of_mem _ (ihx.mp ⟨s, hsm', hspace⟩)
    · intro hx
      rcases List.mem_cons.mp hx with rfl | hx'
      · refine ⟨⟨IP.v6 hi lo, 128, 128⟩, List.mem_cons_self _ _, ?_⟩
        simp [subnetSpace]
      · obtain ⟨s, hsm, hsp⟩ := ihx.mpr hx'
        exact ⟨s, List.mem_cons_of_mem _ hsm, hsp⟩

/-- C1: for every sorted, deduplicated, family-pure AddressSet, the literal
    address-space union of the aggregates produced by the strict subnet
    aggregator and by the strict range aggregator equals the input set
    exactly: every input address is covered and no well-formed address
    outside the input is covered. -/
theorem claim_C1_strict_exactness (ips : List IP) (hs : SortedDedup ips)
    (hfam : AllV4 ips ∨ AllV6 ips) :
    ∀ x : IP, x.WF →
      (((∃ s ∈ ipsToSubnetsStrict ips, subnetSpace s x) ↔ x ∈ ips) ∧
        ((∃ r ∈ ipsToIPRangesStrict ips, rangeSpace r x) ↔ x ∈ ips)) := by
  intro x hx
  rcases hfam with h4 | h6
  · exact ⟨subnetsStrictV4_space ips hs h4 x, rangesStrictV4_space ips hs h4 x⟩
  · exact ⟨subnetsStrictV6_space ips hs h6 x hx, rangesStrictV6_space ips hs h6 x hx⟩

theorem claim_C1_witness :
    ((∃ s ∈ ipsToSubnetsStrict [IP.v4 5], subnetSpace s (IP.v4 5)) ↔
        IP.v4 5 ∈ [IP.v4 5]) ∧
      ((∃ r ∈ ipsToIPRangesStrict [IP.v4 5], rangeSpace r (IP.v4 5)) ↔
        IP.v4 5 ∈ [IP.v4 5]) :=
  claim_C1_strict_exactness [IP.v4 5] (List.chain'_singleton _)
    (Or.inl (by intro ip hip; fin_cases hip <;> decide)) (IP.v4 5)
    (by show (5 : Nat) < 2 ^ 32; decide)

/-! ### Disjointness and ordering (C2) -/

theorem scan_intervals_da (cond : IP → Nat → IP → Bool) (ips : List IP)
    (hs : SortedDedup ips) :
    DisjointAscending ((scanAggregate cond ips).map (fun p => (ipVal p.1, ipVal p.2))) := by
  obtain ⟨hmem, hch⟩ := scanAggregate_sep cond ips hs
  apply disjointAscending_of_sep
  · intro A hA
    obtain ⟨p, hp, hpa⟩ := List.mem_map.mp hA
    rw [← hpa]
    exact (hmem p hp).2.2
  · rw [List.chain'_map]
    exact hch

theorem rangesStrict_da (ips : List IP) (hs : SortedDedup ips) :
    DisjointAscending ((ipsToIPRangesStrict ips).map rangeInterval) := by
  have h := scan_intervals_da rangeStrictCond ips hs
  rw [ipsToIPRangesStrict, List.map_map]
  exact h

theorem rangesLoose_da (ips : List IP) (hs : SortedDedup ips) :
    DisjointAscending ((ipsToIPRangesLoose ips).map rangeInterval) := by
  have h := scan_intervals_da rangeLooseCond ips hs
  rw [ipsToIPRangesLoose, List.map_map]
  exact h

theorem blocksStrict_da (ips : List IP) (hs : SortedDedup ips) :
    DisjointAscending ((ipsToIPBlocksStrict ips).map blockInterval) := by
  have h := scan_intervals_da blockStrictCond ips hs
  rw [ipsToIPBlocksStrict, List.map_map]
  exact h

theorem blocksLoose_da (ips : List IP) (hs : SortedDedup ips) :
    DisjointAscending ((ipsToIPBlocksLoose ips).map blockInterval) := by
  have h := scan_intervals_da blockLooseCond ips hs
  rw [ipsToIPBlocksLoose, List.map_map]
  exact h

theorem subnetsStrictV6_intervals (ips : List IP) (h6 : AllV6 ips) :
    (ipsToSubnetsStrict ips).map subnetInterval = ips.map (fun ip => (ipVal ip, ipVal ip)) := by
  induction ips with
  | nil => rw [ipsToSubnetsStrict]; rfl
  | cons ip rest ih =>
    obtain ⟨hi, lo, hip, _, _, hnone⟩ := isWFv6_shape (h6 ip (List.mem_cons_self _ _))
    subst hip
    rw [ipsToSubnetsStrict_cons_v6 hnone, List.map_cons, List.map_cons,
      ih (fun y hy => h6 y (List.mem_cons_of_mem _ hy))]
    simp [subnetInterval, ipVal]

theorem sorted_point_intervals_da (ips : List IP) (hs : SortedDedup ips) :
    DisjointAscending (ips.map (fun ip => (ipVal ip, ipVal ip))) := by
  apply disjointAscending_of_sep
  · intro A hA
    obtain ⟨p, _, hpa⟩ := List.mem_map.mp hA
    rw [← hpa]
  · rw [List.chain'_map]
    exact hs

/-- The accepted strict v4 subnet starts exactly at the head's value (the
    head is aligned) and the consumed positions carry the consecutive
    values of the whole subnet. -/
theorem subnetsStrictV4_head_facts (v : Nat) (rest : List IP)
    (hs : SortedDedup (IP.v4 v :: rest)) (h4 : AllV4 (IP.v4 v :: rest)) :
    v = v / 2 ^ (32 - subnetStrictScan v rest 24) * 2 ^ (32 - subnetStrictScan v rest 24) ∧
    (∀ i, i ≤ 2 ^ (32 - subnetStrictScan v rest 24) - 1 →
      ipVal ((IP.v4 v :: rest).getD i (IP.v4 0)) = v + i) ∧
    2 ^ (32 - subnetStrictScan v rest 24) - 1 ≤ rest.length ∧
    24 ≤ subnetStrictScan v rest 24 ∧ subnetStrictScan v rest 24 ≤ 32 := by
  obtain ⟨hL1, hL2, hacc⟩ := subnetStrictScan_spec v rest 24 (by omega)
  generalize hLg : subnetStrictScan v rest 24 = L at hL1 hL2 hacc ⊢
  have hvb : v < 2 ^ 32 := by
    obtain ⟨a, hae, hab⟩ := isWFv4_shape (h4 _ (List.mem_cons_self _ _))
    cases hae
    exact hab
  have haj := subnetStrictAccept_spec hacc
  have hHpos : 0 < 2 ^ (32 - L) := Nat.two_pow_pos _
  have hmle : 2 ^ (32 - L) - 1 ≤ rest.length := by
    rcases Nat.eq_zero_or_pos (2 ^ (32 - L) - 1) with h0 | hp
    · omega
    · have := (haj (2 ^ (32 - L) - 1 - 1) (by omega)).1
      omega
  have hwj : ∀ j, j < 2 ^ (32 - L) - 1 → ∃ w, rest.getD j (IP.v4 0) = IP.v4 w ∧
      w < 2 ^ 32 ∧ w / 2 ^ (32 - L) = v / 2 ^ (32 - L) := by
    intro j hj
    obtain ⟨hjlen, hcont⟩ := haj j hj
    obtain ⟨w, hwe, hwb⟩ := isWFv4_shape (h4 _ (List.mem_cons_of_mem _ (getD_mem_of_lt hjlen)))
    rw [hwe] at hcont
    exact ⟨w, hwe, hwb, subnetContains_v4_iff.mp hcont⟩
  have hbint : ∀ i, i ≤ 2 ^ (32 - L) - 1 →
      v / 2 ^ (32 - L) * 2 ^ (32 - L) ≤ ipVal ((IP.v4 v :: rest).getD i (IP.v4 0)) ∧
        ipVal ((IP.v4 v :: rest).getD i (IP.v4 0)) <
          v / 2 ^ (32 - L) * 2 ^ (32 - L) + 2 ^ (32 - L) := by
    intro i hi
    cases i with
    | zero =>
      simpa [ipVal] using (div_eq_iff_interval hHpos).mp (rfl :
        v / 2 ^ (32 - L) = v / 2 ^ (32 - L))
    | succ j =>
      obtain ⟨w, hwe, _, hwdiv⟩ := hwj j (by omega)
      simp only [List.getD_cons_succ, hwe, ipVal]
      exact (div_eq_iff_interval hHpos).mp hwdiv
  have hlow : ∀ i, i ≤ 2 ^ (32 - L) - 1 →
      v + i ≤ ipVal ((IP.v4 v :: rest).getD i (IP.v4 0)) := by
    intro i hi
    have := sorted_add_le hs (Nat.zero_le i) (by simp; omega)
    simpa [ipVal] using this
  have hveqb : v = v / 2 ^ (32 - L) * 2 ^ (32 - L) := by
    have h1 := hlow (2 ^ (32 - L) - 1) (Nat.le_refl _)
    have h2 := hbint (2 ^ (32 - L) - 1) (Nat.le_refl _)
    have h3 := (div_eq_iff_interval hHpos).mp (rfl : v / 2 ^ (32 - L) = v / 2 ^ (32 - L))
    omega
  refine ⟨hveqb, ?_, hmle, hL1, hL2⟩
  intro i hi
  have hup := sorted_add_le hs hi (by simp; omega)
  have h1 := hlow i hi
  have h2 := hbint i hi
  have h3 := hbint (2 ^ (32 - L) - 1) (Nat.le_refl _)
  have h4b := hlow (2 ^ (32 - L) - 1) (Nat.le_refl _)
  omega

theorem subnetsStrictV4_da (ips : List IP) :
    SortedDedup ips → AllV4 ips →
      (∀ iv ∈ (ipsToSubnetsStrict ips).map subnetInterval, iv.1 ≤ iv.2) ∧
      List.Chain' (fun A B => A.2 < B.1) ((ipsToSubnetsStrict ips).map subnetInterval) := by
  induction ips using ipsToSubnetsStrict.induct with
  | case1 =>
    intro _ _
    rw [ipsToSubnetsStrict]
    simp
  | case2 ip rest v hv L ih =>
    intro hs h4
    have hip : ip = IP.v4 v := by
      obtain ⟨a, hae, _⟩ := isWFv4_shape (h4 ip (List.mem_cons_self _ _))
      subst hae
      have hva : a = v := by simpa [IP.to4] using hv
      rw [hva]
    subst hip
    obtain ⟨hveqb, hvals, hmle, hL1, hL2⟩ := subnetsStrictV4_head_facts v rest hs h4
    have hLdef : subnetStrictScan v rest 24 = L := rfl
    rw [hLdef] at hveqb hvals hmle hL1 hL2
    obtain ⟨ihle, ihch⟩ := ih (sortedDedup_drop (sortedDedup_tail hs) _)
      (fun y hy => h4 y (List.mem_cons_of_mem _ (List.mem_of_mem_drop hy)))
    rw [ipsToSubnetsStrict_cons_v4, hLdef, List.map_cons]
    have hfirst : subnetInterval (mkV4Subnet v L) = (v, v + (2 ^ (32 - L) - 1)) := by
      simp only [subnetInterval, mkV4Subnet, ipVal]
      rw [← hveqb]
    constructor
    · intro iv hiv
      rcases List.mem_cons.mp hiv with rfl | hiv'
      · rw [hfirst]
        simp
      · exact ihle iv hiv'
    · rw [hfirst]
      cases hdrop : rest.drop (2 ^ (32 - L) - 1) with
      | nil =>
        rw [show ipsToSubnetsStrict [] = [] from by rw [ipsToSubnetsStrict]]
        exact List.chain'_singleton _
      | cons d0 ds =>
        rw [hdrop] at ihch
        have hsd : SortedDedup (d0 :: ds) := by
          have := sortedDedup_drop (sortedDedup_tail hs) (2 ^ (32 - L) - 1)
          rwa [hdrop] at this
        have h4d : AllV4 (d0 :: ds) := by
          intro y hy
          have hyd : y ∈ rest.drop (2 ^ (32 - L) - 1) := by
            rw [hdrop]
            exact hy
          exact h4 y (List.mem_cons_of_mem _ (List.mem_of_mem_drop hyd))
        obtain ⟨w, hwe, _⟩ := isWFv4_shape (h4d d0 (List.mem_cons_self _ _))
        subst hwe
        obtain ⟨hveqb2, _, _, _, _⟩ := subnetsStrictV4_head_facts w ds hsd h4d
        obtain ⟨hd0, hd0len⟩ := drop_head_getD hdrop
        have hwgt : v + (2 ^ (32 - L) - 1) < w := by
          have hHpos : 0 < 2 ^ (32 - L) := Nat.two_pow_pos _
          have hlt := sorted_lt hs (i := 2 ^ (32 - L) - 1) (j := 2 ^ (32 - L))
            (by omega) (by simp; omega)
          have hv1 := hvals (2 ^ (32 - L) - 1) (Nat.le_refl _)
          rw [hv1] at hlt
          have hget : (IP.v4 v :: rest).getD (2 ^ (32 - L)) (IP.v4 0) = IP.v4 w := by
            have h2k : (2 : Nat) ^ (32 - L) = (2 ^ (32 - L) - 1) + 1 := by
              have := Nat.two_pow_pos (32 - L)
              omega
            rw [h2k, List.getD_cons_succ, ← hd0]
          rw [hget] at hlt
          simpa [ipVal] using hlt
        rw [ipsToSubnetsStrict_cons_v4, List.map_cons] at ihch ⊢
        rw [List.chain'_cons]
        refine ⟨?_, ihch⟩
        have hfirst2 : subnetInterval (mkV4Subnet w (subnetStrictScan w ds 24)) =
            (w, w + (2 ^ (32 - subnetStrictScan w ds 24) - 1)) := by
          simp only [subnetInterval, mkV4Subnet, ipVal]
          rw [← hveqb2]
        rw [hfirst2]
        exact hwgt
  | case3 ip rest hv ih =>
    intro hs h4
    exact absurd (isWFv4_shape (h4 ip (List.mem_cons_self _ _))) (by
      rintro ⟨a, rfl, -⟩
      simp [IP.to4] at hv)

/-- `looseRun` never exceeds the cap or the list length. -/
theorem looseRun_le (s : IPNet) : ∀ (cap : Nat) (l : List IP),
    looseRun s cap l ≤ cap ∧ looseRun s cap l ≤ l.length := by
  intro cap l
  induction l generalizing cap with
  | nil => cases cap <;> simp [looseRun]
  | cons x xs ih =>
    cases cap with
    | zero => simp [looseRun]
    | succ c =>
      simp only [looseRun, List.length_cons]
      cases hc : subnetContains s x with
      | false => simp
      | true =>
        simp only [if_pos rfl, if_true]
        have := ih c
        omega

/-- Every position below the run satisfies the containment test. -/
theorem looseRun_true (s : IPNet) : ∀ (cap : Nat) (l : List IP) (j : Nat),
    j < looseRun s cap l → subnetContains s (l.getD j (IP.v4 0)) = true := by
  intro cap l
  induction l generalizing cap with
  | nil =>
    intro j hj
    cases cap <;> simp [looseRun] at hj
  | cons x xs ih =>
    intro j hj
    cases cap with
    | zero => simp [looseRun] at hj
    | succ c =>
      simp only [looseRun] at hj
      cases hc : subnetContains s x with
      | false => simp [hc] at hj
      | true =>
        simp only [hc, if_true] at hj
        cases j with
        | zero => simpa using hc
        | succ i =>
          rw [List.getD_cons_succ]
          exact ih c i (by omega)

/-- If the run stops before the cap and before the end of the list, the
    stopping element fails the containment test. -/
theorem looseRun_stop (s : IPNet) : ∀ (cap : Nat) (l : List IP),
    looseRun s cap l < cap → looseRun s cap l < l.length →
      subnetContains s (l.getD (looseRun s cap l) (IP.v4 0)) = false := by
  intro cap l
  induction l generalizing cap with
  | nil =>
    intro _ h
    simp at h
  | cons x xs ih =>
    intro hcap hlen
    cases cap with
    | zero => simp at hcap
    | succ c =>
      simp only [looseRun] at hcap hlen ⊢
      cases hc : subnetContains s x with
      | false =>
        simp only [hc, if_false, Bool.false_eq_true]
        simpa using hc
      | true =>
        simp only [hc, if_true] at hcap hlen ⊢
        rw [List.getD_cons_succ]
        exact ih c (by omega) (by simp only [List.length_cons] at hlen; omega)

/-- `looseRun` is monotone in the subnet (on the list's members) and the
    cap. -/
theorem looseRun_mono {s s' : IPNet} :
    ∀ (cap cap' : Nat) (l : List IP),
      (∀ x ∈ l, subnetContains s' x = true → subnetContains s x = true) →
      cap' ≤ cap → looseRun s' cap' l ≤ looseRun s cap l := by
  intro cap cap' l
  induction l generalizing cap cap' with
  | nil =>
    intro _ _
    cases cap' <;> cases cap <;> simp [looseRun]
  | cons x xs ih =>
    intro hsub hcle
    cases cap' with
    | zero => simp [looseRun]
    | succ c' =>
      cases cap with
      | zero => omega
      | succ c =>
        simp only [looseRun]
        cases hc' : subnetContains s' x with
        | false => simp
        | true =>
          rw [hsub x (List.mem_cons_self _ _) hc']
          simp only [if_true]
          have := ih c c' (fun y hy => hsub y (List.mem_cons_of_mem _ hy)) (by omega)
          omega

/-- Agreement modulo a smaller power of two propagates to larger powers. -/
theorem div_pow_nest {w v k1 k2 : Nat} (hk : k1 ≤ k2)
    (h : w / 2 ^ k1 = v / 2 ^ k1) : w / 2 ^ k2 = v / 2 ^ k2 := by
  have h2 : (2 : Nat) ^ k2 = 2 ^ k1 * 2 ^ (k2 - k1) := by
    rw [← pow_add]
    congr 1
    omega
  rw [h2, ← Nat.div_div_eq_div_mul, ← Nat.div_div_eq_div_mul, h]

/-- The aligned block of size `2^k` containing `v` nests inside the aligned
    block of size `2^m` containing `v`, for `k ≤ m`. -/
theorem div_mul_nest {v k m : Nat} (hk : k ≤ m) :
    v / 2 ^ m * 2 ^ m ≤ v / 2 ^ k * 2 ^ k ∧
      v / 2 ^ k * 2 ^ k + 2 ^ k ≤ v / 2 ^ m * 2 ^ m + 2 ^ m := by
  have hsplit : (2 : Nat) ^ m = 2 ^ (m - k) * 2 ^ k := by
    rw [← pow_add]
    congr 1
    omega
  have hkpos : (0 : Nat) < 2 ^ k := Nat.two_pow_pos k
  have h1 : v / 2 ^ m * 2 ^ m = v / 2 ^ m * 2 ^ (m - k) * 2 ^ k := by
    rw [Nat.mul_assoc, ← hsplit]
  have h2 : v / 2 ^ m * 2 ^ (m - k) ≤ v / 2 ^ k := by
    rw [Nat.le_div_iff_mul_le hkpos, Nat.mul_assoc, ← hsplit]
    exact Nat.div_mul_le_self v (2 ^ m)
  have hv2 := (div_eq_iff_interval (Nat.two_pow_pos m)).mp (rfl : v / 2 ^ m = v / 2 ^ m)
  have h3 : v / 2 ^ k < v / 2 ^ m * 2 ^ (m - k) + 2 ^ (m - k) := by
    rw [Nat.div_lt_iff_lt_mul hkpos, Nat.add_mul, Nat.mul_assoc, ← hsplit]
    exact hv2.2
  constructor
  · calc v / 2 ^ m * 2 ^ m = v / 2 ^ m * 2 ^ (m - k) * 2 ^ k := h1
      _ ≤ v / 2 ^ k * 2 ^ k := Nat.mul_le_mul_right _ h2
  · have e1 : v / 2 ^ k * 2 ^ k + 2 ^ k = (v / 2 ^ k + 1) * 2 ^ k := by
      rw [Nat.add_mul, Nat.one_mul]
    have e2 : (v / 2 ^ m * 2 ^ (m - k) + 2 ^ (m - k)) * 2 ^ k =
        v / 2 ^ m * 2 ^ m + 2 ^ m := by
      rw [Nat.add_mul, ← h1, ← hsplit]
    rw [e1, ← e2]
    exact Nat.mul_le_mul_right _ h3

/-- Containment in a `mkV4Subnet` for a candidate whose `To4` succeeds. -/
theorem subnetContains_mkV4_to4 {v L : Nat} {x : IP} {w : Nat} (hx : x.to4 = some w) :
    subnetContains (mkV4Subnet v L) x = (w / 2 ^ (32 - L) == v / 2 ^ (32 - L)) := by
  have hmd : v / 2 ^ (32 - L) * 2 ^ (32 - L) / 2 ^ (32 - L) = v / 2 ^ (32 - L) :=
    Nat.mul_div_cancel _ (Nat.two_pow_pos _)
  cases x with
  | v4 a =>
    have haw : a = w := by simpa [IP.to4] using hx
    subst haw
    simp [subnetContains, mkV4Subnet, IP.to4, hmd]
  | v6 hi lo =>
    simp only [IP.to4] at hx
    by_cases hcond : hi = 0 ∧ lo / 2 ^ 32 = 65535
    · rw [if_pos hcond] at hx
      have hw : lo % 2 ^ 32 = w := by simpa using hx
      subst hw
      obtain ⟨h0, h65⟩ := hcond
      subst h0
      simp only [subnetContains, mkV4Subnet, IP.to4]
      rw [if_pos ⟨trivial, h65⟩]
      simp only [hmd]
    · rw [if_neg hcond] at hx
      cases hx

/-- A candidate whose `To4` fails is never inside a `mkV4Subnet`. -/
theorem subnetContains_mkV4_none {v L : Nat} {x : IP} (hx : x.to4 = none) :
    subnetContains (mkV4Subnet v L) x = false := by
  cases x with
  | v4 a => simp [IP.to4] at hx
  | v6 hi lo =>
    simp only [IP.to4] at hx
    by_cases hcond : hi = 0 ∧ lo / 2 ^ 32 = 65535
    · rw [if_pos hcond] at hx
      cases hx
    · simp only [subnetContains, mkV4Subnet, IP.to4]
      rw [if_neg hcond]

/-- Narrowing a v4 candidate subnet shrinks its containment set. -/
theorem mkV4Subnet_mono {v L L' : Nat} (hLL : L ≤ L') (x : IP) :
    subnetContains (mkV4Subnet v L') x = true → subnetContains (mkV4Subnet v L) x = true := by
  intro h
  cases hx : x.to4 with
  | none =>
    rw [subnetContains_mkV4_none hx] at h
    cases h
  | some w =>
    rw [subnetContains_mkV4_to4 hx] at h ⊢
    have hw : w / 2 ^ (32 - L') = v / 2 ^ (32 - L') := by simpa using h
    have hnest := @div_pow_nest w v (32 - L') (32 - L) (by omega) hw
    simpa using hnest

/-- At /32 the loose v4 scan emits the host subnet, consuming one
    position. -/
theorem subnetLooseScan_at32 (v : Nat) (rest : List IP) (ph : Nat) (ps : IPNet)
    (hple : ph ≤ looseRun (mkV4Subnet v 32) (2 ^ (32 - 32) - 1) rest + 1) :
    subnetLooseScan v rest 32 ph ps =
      (mkV4Subnet v 32, looseRun (mkV4Subnet v 32) (2 ^ (32 - 32) - 1) rest + 1) := by
  rw [subnetLooseScan]
  simp only [hple, if_true, le_refl, if_pos]
  norm_num [looseRun]

/-- Along the kept path of the loose v4 scan the host counts stay equal to
    the /24 count, so the scan returns some mask in `[24, 32]` together
    with the entry-level host count. -/
theorem subnetLooseScan_result (v : Nat) (rest : List IP) :
    ∀ (n L ph : Nat) (ps : IPNet), 32 - L ≤ n → 24 ≤ L → L ≤ 32 →
      ph ≤ looseRun (mkV4Subnet v L) (2 ^ (32 - L) - 1) rest + 1 →
      ∃ L', L ≤ L' ∧ L' ≤ 32 ∧
        subnetLooseScan v rest L ph ps =
          (mkV4Subnet v L', looseRun (mkV4Subnet v L) (2 ^ (32 - L) - 1) rest + 1) := by
  intro n
  induction n with
  | zero =>
    intro L ph ps hn h24 h32 hple
    have hL : L = 32 := by omega
    subst hL
    exact ⟨32, le_refl _, le_refl _, subnetLooseScan_at32 v rest ph ps hple⟩
  | succ n ih =>
    intro L ph ps hn h24 h32 hple
    by_cases h32L : 32 ≤ L
    · have hL : L = 32 := by omega
      subst hL
      exact ⟨32, le_refl _, le_refl _, subnetLooseScan_at32 v rest ph ps hple⟩
    · rw [subnetLooseScan]
      simp only [hple, if_true, h32L, if_false]
      have hmono : looseRun (mkV4Subnet v (L + 1)) (2 ^ (32 - (L + 1)) - 1) rest ≤
          looseRun (mkV4Subnet v L) (2 ^ (32 - L) - 1) rest := by
        refine looseRun_mono _ _ rest (fun x _ => mkV4Subnet_mono (by omega) x) ?_
        have hp2 : (2 : Nat) ^ (32 - (L + 1)) ≤ 2 ^ (32 - L) :=
          Nat.pow_le_pow_right (by norm_num) (by omega)
        omega
      by_cases hkeep : looseRun (mkV4Subnet v L) (2 ^ (32 - L) - 1) rest + 1 ≤
          looseRun (mkV4Subnet v (L + 1)) (2 ^ (32 - (L + 1)) - 1) rest + 1
      · have heq : looseRun (mkV4Subnet v (L + 1)) (2 ^ (32 - (L + 1)) - 1) rest + 1 =
            looseRun (mkV4Subnet v L) (2 ^ (32 - L) - 1) rest + 1 := by omega
        obtain ⟨L', hL'1, hL'2, hres⟩ := ih (L + 1)
          (looseRun (mkV4Subnet v L) (2 ^ (32 - L) - 1) rest + 1)
          (mkV4Subnet v L) (by omega) (by omega) (by omega) (by omega)
        refine ⟨L', by omega, hL'2, ?_⟩
        rw [hres, heq]
      · refine ⟨L, le_refl _, by omega, ?_⟩
        rw [subnetLooseScan]
        simp only [hkeep, if_false]

theorem ipsToSubnetsLoose_cons_v4 (v : Nat) (rest : List IP) :
    ipsToSubnetsLoose (IP.v4 v :: rest) =
      (subnetLooseScan v rest 24 0 ⟨IP.v4 0, 0, 0⟩).1 ::
        ipsToSubnetsLoose
          (rest.drop ((subnetLooseScan v rest 24 0 ⟨IP.v4 0, 0, 0⟩).2 - 1)) := by
  rw [ipsToSubnetsLoose]
  rfl

theorem ipsToSubnetsLoose_cons_v6 {ip : IP} (hnone : ip.to4 = none) (rest : List IP) :
    ipsToSubnetsLoose (ip :: rest) =
      (⟨IP.v6 ip.hi64 0, 64, 128⟩ : IPNet) ::
        ipsToSubnetsLoose
          (rest.drop (looseRun ⟨IP.v6 ip.hi64 0, 64, 128⟩ 999 rest)) := by
  rw [ipsToSubnetsLoose]
  simp only [hnone, Nat.add_sub_cancel]

theorem subnetsLooseV4_da (ips : List IP) :
    SortedDedup ips → AllV4 ips →
      (∀ iv ∈ (ipsToSubnetsLoose ips).map subnetInterval, iv.1 ≤ iv.2) ∧
      List.Chain' (fun A B => A.2 < B.1) ((ipsToSubnetsLoose ips).map subnetInterval) := by
  induction ips using ipsToSubnetsLoose.induct with
  | case1 =>
    intro _ _
    rw [ipsToSubnetsLoose]
    simp
  | case2 ip rest v hv r ih =>
    intro hs h4
    have hip : ip = IP.v4 v := by
      obtain ⟨a, hae, _⟩ := isWFv4_shape (h4 ip (List.mem_cons_self _ _))
      subst hae
      have hva : a = v := by simpa [IP.to4] using hv
      rw [hva]
    subst hip
    obtain ⟨L', h24L', hL'32, hres⟩ := subnetLooseScan_result v rest 8 24 0
      ⟨IP.v4 0, 0, 0⟩ (by omega) (le_refl _) (by omega) (Nat.zero_le _)
    have hrdef : subnetLooseScan v rest 24 0 ⟨IP.v4 0, 0, 0⟩ = r := rfl
    rw [← hrdef, hres] at ih
    simp only [Nat.add_sub_cancel] at ih
    obtain ⟨ihle, ihch⟩ := ih
      (sortedDedup_drop (sortedDedup_tail hs) _)
      (fun y hy => h4 y (List.mem_cons_of_mem _ (List.mem_of_mem_drop hy)))
    rw [ipsToSubnetsLoose_cons_v4, hres]
    simp only [Nat.add_sub_cancel]
    rw [List.map_cons]
    have hnest := div_mul_nest (v := v) (k := 32 - L') (m := 32 - 24) (by omega)
    have hfirst : subnetInterval (mkV4Subnet v L') =
        (v / 2 ^ (32 - L') * 2 ^ (32 - L'),
         v / 2 ^ (32 - L') * 2 ^ (32 - L') + (2 ^ (32 - L') - 1)) := by
      simp [subnetInterval, mkV4Subnet, ipVal]
    rw [hfirst]
    constructor
    · intro iv hiv
      rcases List.mem_cons.mp hiv with rfl | hiv'
      · simp
      · exact ihle iv hiv'
    · cases hdrop : rest.drop (looseRun (mkV4Subnet v 24) (2 ^ (32 - 24) - 1) rest) with
      | nil =>
        rw [show ipsToSubnetsLoose [] = [] from by rw [ipsToSubnetsLoose]]
        exact List.chain'_singleton _
      | cons d0 ds =>
        rw [hdrop] at ihch
        have hsd : SortedDedup (d0 :: ds) := by
          have h := sortedDedup_drop (sortedDedup_tail hs)
            (looseRun (mkV4Subnet v 24) (2 ^ (32 - 24) - 1) rest)
          rwa [hdrop] at h
        have h4d : AllV4 (d0 :: ds) := by
          intro y hy
          have hyd : y ∈ rest.drop (looseRun (mkV4Subnet v 24) (2 ^ (32 - 24) - 1) rest) := by
            rw [hdrop]
            exact hy
          exact h4 y (List.mem_cons_of_mem _ (List.mem_of_mem_drop hyd))
        obtain ⟨w, hwe, _⟩ := isWFv4_shape (h4d d0 (List.mem_cons_self _ _))
        subst hwe
        obtain ⟨hd0, hd0len⟩ := drop_head_getD hdrop
        have hrle := looseRun_le (mkV4Subnet v 24) (2 ^ (32 - 24) - 1) rest
        have hp8 : (0 : Nat) < 2 ^ (32 - 24) := Nat.two_pow_pos _
        have hb24 := (div_eq_iff_interval hp8).mp
          (rfl : v / 2 ^ (32 - 24) = v / 2 ^ (32 - 24))
        have hwout : v / 2 ^ (32 - 24) * 2 ^ (32 - 24) + 2 ^ (32 - 24) ≤ w := by
          by_cases hc : looseRun (mkV4Subnet v 24) (2 ^ (32 - 24) - 1) rest <
              2 ^ (32 - 24) - 1
          · have hstop := looseRun_stop (mkV4Subnet v 24) (2 ^ (32 - 24) - 1) rest hc hd0len
            rw [← hd0] at hstop
            rw [subnetContains_mkV4_to4 (rfl : (IP.v4 w).to4 = some w)] at hstop
            have hne : ¬(w / 2 ^ (32 - 24) = v / 2 ^ (32 - 24)) := by simpa using hstop
            have hvw : v < w := by
              have hlt := sorted_lt hs (i := 0)
                (j := looseRun (mkV4Subnet v 24) (2 ^ (32 - 24) - 1) rest + 1)
                (by omega) (by simp only [List.length_cons]; omega)
              rw [List.getD_cons_succ, ← hd0] at hlt
              simpa [ipVal] using hlt
            have hdivle : v / 2 ^ (32 - 24) ≤ w / 2 ^ (32 - 24) :=
              Nat.div_le_div_right (Nat.le_of_lt hvw)
            have hdivlt : v / 2 ^ (32 - 24) + 1 ≤ w / 2 ^ (32 - 24) := by omega
            have hmul := (Nat.le_div_iff_mul_le hp8).mp hdivlt
            calc v / 2 ^ (32 - 24) * 2 ^ (32 - 24) + 2 ^ (32 - 24)
                = (v / 2 ^ (32 - 24) + 1) * 2 ^ (32 - 24) := by
                  rw [Nat.add_mul, Nat.one_mul]
              _ ≤ w := hmul
          · have hadd := sorted_add_le hs (i := 0)
              (j := looseRun (mkV4Subnet v 24) (2 ^ (32 - 24) - 1) rest + 1)
              (Nat.zero_le _) (by simp only [List.length_cons]; omega)
            rw [List.getD_cons_succ, ← hd0] at hadd
            simp only [List.getD_cons_zero, ipVal] at hadd
            omega
        obtain ⟨L'', h24L'', hL''32, hres2⟩ := subnetLooseScan_result w ds 8 24 0
          ⟨IP.v4 0, 0, 0⟩ (by omega) (le_refl _) (by omega) (Nat.zero_le _)
        rw [ipsToSubnetsLoose_cons_v4, hres2] at ihch ⊢
        simp only [Nat.add_sub_cancel] at ihch ⊢
        rw [List.map_cons] at ihch ⊢
        rw [List.chain'_cons]
        refine ⟨?_, ihch⟩
        have hnest2 := div_mul_nest (v := w) (k := 32 - L'') (m := 32 - 24) (by omega)
        have hfirst2 : subnetInterval (mkV4Subnet w L'') =
            (w / 2 ^ (32 - L'') * 2 ^ (32 - L''),
             w / 2 ^ (32 - L'') * 2 ^ (32 - L'') + (2 ^ (32 - L'') - 1)) := by
          simp [subnetInterval, mkV4Subnet, ipVal]
        rw [hfirst2]
        have hdiv : v / 2 ^ (32 - 24) + 1 ≤ w / 2 ^ (32 - 24) := by
          rw [Nat.le_div_iff_mul_le hp8, Nat.add_mul, Nat.one_mul]
          exact hwout
        have hble : v / 2 ^ (32 - 24) * 2 ^ (32 - 24) + 2 ^ (32 - 24) ≤
            w / 2 ^ (32 - 24) * 2 ^ (32 - 24) := by
          have hm := Nat.mul_le_mul_right (2 ^ (32 - 24)) hdiv
          rw [Nat.add_mul, Nat.one_mul] at hm
          exact hm
        have hupper := hnest.2
        have hlower := hnest2.1
        have hpL' : (0 : Nat) < 2 ^ (32 - L') := Nat.two_pow_pos _
        omega
  | case3 ip rest hv s hosts ih =>
    intro hs h4
    exact absurd (isWFv4_shape (h4 ip (List.mem_cons_self _ _))) (by
      rintro ⟨a, rfl, -⟩
      simp [IP.to4] at hv)

/-- Containment in the /64 of `hi` tests exactly the high 64 bits, for a
    well-formed non-mapped v6 candidate. -/
theorem subnetContains_v64_iff {hi xhi xlo : Nat} (hxlo : xlo < 2 ^ 64)
    (hx4 : (IP.v6 xhi xlo).to4 = none) :
    subnetContains ⟨IP.v6 hi 0, 64, 128⟩ (IP.v6 xhi xlo) = true ↔ xhi = hi := by
  have hbase : (IP.v6 hi 0).to4 = none := by simp [IP.to4]
  have h64 : (128 - 64 : Nat) = 64 := rfl
  have hval : (xhi * 2 ^ 64 + xlo) / 2 ^ (128 - 64) = xhi := by
    rw [h64, Nat.mul_comm, Nat.mul_add_div (Nat.two_pow_pos 64),
      Nat.div_eq_of_lt hxlo, Nat.add_zero]
  have hval2 : ipVal (IP.v6 hi 0) / 2 ^ (128 - 64) = hi := by
    show (hi * 2 ^ 64 + 0) / 2 ^ (128 - 64) = hi
    rw [h64, Nat.add_zero, Nat.mul_div_cancel _ (Nat.two_pow_pos 64)]
  simp only [subnetContains]
  rw [hbase, hx4]
  simp only [Option.isSome_none, Bool.false_eq_true, if_false, beq_iff_eq]
  rw [hval, hval2]

/-- If the first `k` positions of a list satisfy a predicate, the filtered
    list has at least `k` elements. -/
theorem filter_count_of_prefix (p : IP → Bool) :
    ∀ (l : List IP) (k : Nat), k ≤ l.length →
      (∀ j, j < k → p (l.getD j (IP.v4 0)) = true) → k ≤ (l.filter p).length := by
  intro l
  induction l with
  | nil =>
    intro k hk _
    simpa using hk
  | cons x xs ih =>
    intro k hk hall
    cases k with
    | zero => exact Nat.zero_le _
    | succ m =>
      have hx : p x = true := hall 0 (Nat.succ_pos _)
      rw [List.filter_cons_of_pos hx]
      simp only [List.length_cons]
      have hr := ih m (by simp only [List.length_cons] at hk; omega)
        (fun j hj => by
          have hstep := hall (j + 1) (by omega)
          rwa [List.getD_cons_succ] at hstep)
      omega

theorem subnetsLooseV6_da (ips : List IP) :
    SortedDedup ips → AllV6 ips →
      (∀ h : Nat, (ips.filter (fun x => x.hi64 == h)).length ≤ 1000) →
      (∀ iv ∈ (ipsToSubnetsLoose ips).map subnetInterval, iv.1 ≤ iv.2) ∧
      List.Chain' (fun A B => A.2 < B.1) ((ipsToSubnetsLoose ips).map subnetInterval) := by
  induction ips using ipsToSubnetsLoose.induct with
  | case1 =>
    intro _ _ _
    rw [ipsToSubnetsLoose]
    simp
  | case2 ip rest v hv r ih =>
    intro hs h6 hcap
    obtain ⟨hi, lo, hipe, -, -, hnone⟩ := isWFv6_shape (h6 ip (List.mem_cons_self _ _))
    rw [hipe, hnone] at hv
    cases hv
  | case3 ip rest hv s hosts ih =>
    intro hs h6 hcap
    obtain ⟨hi, lo, hipe, hhi, hlo, -⟩ := isWFv6_shape (h6 ip (List.mem_cons_self _ _))
    subst hipe
    have hsdef : (⟨IP.v6 hi 0, 64, 128⟩ : IPNet) = s := rfl
    have hhdef : looseRun (⟨IP.v6 hi 0, 64, 128⟩ : IPNet) 999 rest + 1 = hosts := by
      rw [hsdef]
    have hdropeq : hosts - 1 = looseRun (⟨IP.v6 hi 0, 64, 128⟩ : IPNet) 999 rest := by
      omega
    rw [hdropeq] at ih
    obtain ⟨ihle, ihch⟩ := ih
      (sortedDedup_drop (sortedDedup_tail hs) _)
      (fun y hy => h6 y (List.mem_cons_of_mem _ (List.mem_of_mem_drop hy)))
      (fun h => le_trans
        (List.Sublist.length_le (List.Sublist.filter _
          ((List.drop_sublist _ _).trans (List.sublist_cons_self _ _))))
        (hcap h))
    rw [ipsToSubnetsLoose_cons_v6 hv]
    simp only [IP.hi64]
    rw [List.map_cons]
    have hfirst : subnetInterval (⟨IP.v6 hi 0, 64, 128⟩ : IPNet) =
        (hi * 2 ^ 64, hi * 2 ^ 64 + (2 ^ 64 - 1)) := by
      simp [subnetInterval, ipVal]
    rw [hfirst]
    constructor
    · intro iv hiv
      rcases List.mem_cons.mp hiv with rfl | hiv'
      · simp
      · exact ihle iv hiv'
    · cases hdrop : rest.drop (looseRun (⟨IP.v6 hi 0, 64, 128⟩ : IPNet) 999 rest) with
      | nil =>
        rw [show ipsToSubnetsLoose [] = [] from by rw [ipsToSubnetsLoose]]
        exact List.chain'_singleton _
      | cons d0 ds =>
        rw [hdrop] at ihch
        have h6d : AllV6 (d0 :: ds) := by
          intro y hy
          have hyd : y ∈ rest.drop (looseRun (⟨IP.v6 hi 0, 64, 128⟩ : IPNet) 999 rest) := by
            rw [hdrop]
            exact hy
          exact h6 y (List.mem_cons_of_mem _ (List.mem_of_mem_drop hyd))
        obtain ⟨whi, wlo, hwe, hwhi, hwlo, hwnone⟩ :=
          isWFv6_shape (h6d d0 (List.mem_cons_self _ _))
        subst hwe
        obtain ⟨hd0, hd0len⟩ := drop_head_getD hdrop
        have hrle := looseRun_le (⟨IP.v6 hi 0, 64, 128⟩ : IPNet) 999 rest
        have hne : whi ≠ hi := by
          by_cases hc : looseRun (⟨IP.v6 hi 0, 64, 128⟩ : IPNet) 999 rest < 999
          · have hstop := looseRun_stop (⟨IP.v6 hi 0, 64, 128⟩ : IPNet) 999 rest hc hd0len
            rw [← hd0] at hstop
            intro he
            have hct := (subnetContains_v64_iff hwlo hwnone).mpr he
            rw [hstop] at hct
            cases hct
          · intro he
            have hceq : looseRun (⟨IP.v6 hi 0, 64, 128⟩ : IPNet) 999 rest = 999 := by omega
            rw [hceq] at hd0len hd0
            have hlen1001 : 1001 ≤ (IP.v6 hi lo :: rest).length := by
              simp only [List.length_cons]
              omega
            have hall : ∀ j, j < 1001 →
                (fun x => x.hi64 == hi) ((IP.v6 hi lo :: rest).getD j (IP.v4 0)) = true := by
              intro j hj
              cases j with
              | zero => simp [IP.hi64]
              | succ i =>
                rw [List.getD_cons_succ]
                by_cases hi999 : i < 999
                · have hct := looseRun_true (⟨IP.v6 hi 0, 64, 128⟩ : IPNet) 999 rest i
                    (by omega)
                  have himem : i < rest.length := by omega
                  obtain ⟨xhi, xlo, hxe, -, hxlo, hxnone⟩ := isWFv6_shape
                    (h6 _ (List.mem_cons_of_mem _ (getD_mem_of_lt himem)))
                  rw [hxe] at hct ⊢
                  have hxeq := (subnetContains_v64_iff hxlo hxnone).mp hct
                  simp [IP.hi64, hxeq]
                · have hieq : i = 999 := by omega
                  subst hieq
                  rw [← hd0]
                  simp [IP.hi64, he]
            have hcount := filter_count_of_prefix (fun x => x.hi64 == hi)
              (IP.v6 hi lo :: rest) 1001 hlen1001 hall
            have hle1000 := hcap hi
            omega
        have hgt : hi < whi := by
          have hlt := sorted_lt hs (i := 0)
            (j := looseRun (⟨IP.v6 hi 0, 64, 128⟩ : IPNet) 999 rest + 1)
            (by omega) (by simp only [List.length_cons]; omega)
          rw [List.getD_cons_succ, ← hd0] at hlt
          simp only [List.getD_cons_zero, ipVal] at hlt
          omega
        rw [ipsToSubnetsLoose_cons_v6 hwnone] at ihch ⊢
        simp only [IP.hi64] at ihch ⊢
        rw [List.map_cons] at ihch ⊢
        rw [List.chain'_cons]
        refine ⟨?_, ihch⟩
        have hfirst2 : subnetInterval (⟨IP.v6 whi 0, 64, 128⟩ : IPNet) =
            (whi * 2 ^ 64, whi * 2 ^ 64 + (2 ^ 64 - 1)) := by
          simp [subnetInterval, ipVal]
        rw [hfirst2]
        omega

set_option maxRecDepth 1000000 in
/-- On 1001 sorted addresses sharing one /64, the loose subnet aggregator
    emits that /64 twice: its merge lookahead stops after 999 extra
    positions, so the aggregate intervals are neither disjoint nor strictly
    ascending. -/
theorem claim_C2_counterexample :
    SortedDedup ((List.range 1001).map (IP.v6 1)) ∧
    AllV6 ((List.range 1001).map (IP.v6 1)) ∧
    ¬ DisjointAscending
        ((ipsToSubnetsLoose ((List.range 1001).map (IP.v6 1))).map subnetInterval) := by
  refine ⟨?_, ?_, ?_⟩
  · show List.Chain' (fun a b => ipVal a < ipVal b) _
    rw [List.chain'_map]
    refine List.Pairwise.chain' ?_
    refine List.Pairwise.imp ?_ (List.pairwise_lt_range 1001)
    intro a b hab
    simp only [ipVal]
    omega
  · intro ip hip
    obtain ⟨i, hi, rfl⟩ := List.mem_map.mp hip
    have hilt : i < 1001 := List.mem_range.mp hi
    simp [isWFv6, IP.to4]
    omega
  · have hout : ipsToSubnetsLoose ((List.range 1001).map (IP.v6 1)) =
        [⟨IP.v6 1 0, 64, 128⟩, ⟨IP.v6 1 0, 64, 128⟩] := by
      rw [ipsToSubnetsLoose_eq_fuel _ 1001 (by simp)]
      rfl
    rw [hout]
    intro hda
    have hch := hda.2
    rw [List.map_cons, List.map_cons, List.map_nil, List.chain'_cons] at hch
    exact Nat.lt_irrefl _ hch.1

/-- C2 (corrected): on a sorted, deduplicated, family-pure address list,
    the aggregates of five of the six aggregators (subnets strict; ranges
    and blocks under both policies) have pairwise-disjoint value intervals
    ascending by start address, unconditionally.  The sixth, the loose
    subnet aggregator, satisfies the same invariant on every IPv4 list, and
    on an IPv6 list in which no 64-bit high part occurs more than 1000
    times; without that bound it can emit one /64 twice, because its merge
    lookahead inspects at most 999 following positions. -/
theorem claim_C2_disjoint_ascending (ips : List IP)
    (hs : SortedDedup ips) (hfam : AllV4 ips ∨ AllV6 ips) :
    DisjointAscending ((ipsToSubnetsStrict ips).map subnetInterval) ∧
    ((AllV4 ips ∨ ∀ h : Nat, (ips.filter (fun x => x.hi64 == h)).length ≤ 1000) →
      DisjointAscending ((ipsToSubnetsLoose ips).map subnetInterval)) ∧
    DisjointAscending ((ipsToIPRangesStrict ips).map rangeInterval) ∧
    DisjointAscending ((ipsToIPRangesLoose ips).map rangeInterval) ∧
    DisjointAscending ((ipsToIPBlocksStrict ips).map blockInterval) ∧
    DisjointAscending ((ipsToIPBlocksLoose ips).map blockInterval) := by
  refine ⟨?_, ?_, rangesStrict_da ips hs, rangesLoose_da ips hs,
    blocksStrict_da ips hs, blocksLoose_da ips hs⟩
  · rcases hfam with h4 | h6
    · obtain ⟨hle, hch⟩ := subnetsStrictV4_da ips hs h4
      exact disjointAscending_of_sep _ hle hch
    · rw [subnetsStrictV6_intervals ips h6]
      exact sorted_point_intervals_da ips hs
  · intro hside
    rcases hside with h4 | hcap
    · obtain ⟨hle, hch⟩ := subnetsLooseV4_da ips hs h4
      exact disjointAscending_of_sep _ hle hch
    · rcases hfam with h4 | h6
      · obtain ⟨hle, hch⟩ := subnetsLooseV4_da ips hs h4
        exact disjointAscending_of_sep _ hle hch
      · obtain ⟨hle, hch⟩ := subnetsLooseV6_da ips hs h6 hcap
        exact disjointAscending_of_sep _ hle hch

/-- Witness for `claim_C2_disjoint_ascending` at a concrete sorted
    two-address IPv4 input, with the loose subnet side condition discharged
    through the IPv4 disjunct. -/
theorem claim_C2_witness :
    DisjointAscending ((ipsToSubnetsStrict [IP.v4 10, IP.v4 12]).map subnetInterval) ∧
    DisjointAscending ((ipsToSubnetsLoose [IP.v4 10, IP.v4 12]).map subnetInterval) ∧
    DisjointAscending ((ipsToIPRangesStrict [IP.v4 10, IP.v4 12]).map rangeInterval) ∧
    DisjointAscending ((ipsToIPRangesLoose [IP.v4 10, IP.v4 12]).map rangeInterval) ∧
    DisjointAscending ((ipsToIPBlocksStrict [IP.v4 10, IP.v4 12]).map blockInterval) ∧
    DisjointAscending ((ipsToIPBlocksLoose [IP.v4 10, IP.v4 12]).map blockInterval) := by
  have h4 : AllV4 [IP.v4 10, IP.v4 12] := by
    intro ip hip
    fin_cases hip <;> decide
  have h := claim_C2_disjoint_ascending [IP.v4 10, IP.v4 12]
    (by simp [SortedDedup, List.chain'_cons, List.chain'_singleton, ipVal])
    (Or.inl h4)
  exact ⟨h.1, h.2.1 (Or.inl h4), h.2.2.1, h.2.2.2.1, h.2.2.2.2.1, h.2.2.2.2.2⟩

end TeIps
